import Mathlib

/-!
Verification of the schema-inference / analytics core of the
Business-analyser-AI repository (`app.py`, `analytics_engine.py`).

The Python code is shallow-embedded:

* a pandas `DataFrame` becomes a `Table`: an ordered list of named columns,
  each column carrying a dtype tag (`numCol` for numeric dtypes, `strCol`
  for object/string dtype, `dateCol` for datetime64 with `none` as `NaT`);
* Python floats are modelled as exact rationals (`ℚ`);
* cell-level string cleanup (`clean_currency`) is modelled on `List Char`;
* `pd.to_numeric(..., errors="coerce")` becomes an `Option ℚ` valued
  coercion (`none` models `NaN`), `fillna(0)` becomes `Option.getD 0`;
* the one statement of the analytics engine that can raise
  (`groupby(...).sum().idxmax()` on an empty frame raises `ValueError`)
  is modelled with `Except Unit`.
-/

namespace BizAnalyzer

/-! ## Character / string utilities (`clean_currency`, app.py lines 110-113) -/

/-- ASCII whitespace, modelling the characters removed by Python `str.strip`. -/
def isWS (c : Char) : Bool :=
  c = ' ' || c = '\t' || c = '\n' || c = '\r'

/-- Remove leading and trailing whitespace, modelling `str.strip()`. -/
def trimChars (cs : List Char) : List Char :=
  (((cs.dropWhile isWS).reverse.dropWhile isWS)).reverse

/-- Left-to-right removal of every non-overlapping occurrence of the
two-character slash-dash marker, modelling the third `str.replace` of
`clean_currency` (which replaces it with the empty string). -/
def removeSlashDash : List Char → List Char
  | [] => []
  | [c] => [c]
  | c :: d :: rest =>
      if c = '/' ∧ d = '-' then removeSlashDash rest
      else c :: removeSlashDash (d :: rest)

/-- `clean_currency` on the character list of a string cell: remove the
commas, then the rupee glyphs, then the slash-dash markers, then strip.
Single-character replacements by the empty string are exactly filters. -/
def cleanChars (cs : List Char) : List Char :=
  trimChars (removeSlashDash ((cs.filter (· ≠ ',')).filter (· ≠ '₹')))

/-- `clean_currency` on a string value. -/
def cleanStr (s : String) : String :=
  ⟨cleanChars s.data⟩

/-- Does `k` occur at the head of `l`? (helper for substring search). -/
def leadsWith : List Char → List Char → Bool
  | [], _ => true
  | _ :: _, [] => false
  | a :: as, b :: bs => a = b && leadsWith as bs

/-- Does `k` occur as a contiguous substring of `l`?  Models Python `k in s`. -/
def hasSub (k : List Char) : List Char → Bool
  | [] => leadsWith k []
  | c :: rest => leadsWith k (c :: rest) || hasSub k rest

/-! ## Numeric parsing (`pd.to_numeric(..., errors="coerce")` on one cell)

Modelled for plain decimal literals (optional sign, integer part,
optional fractional part), the format produced by the cleaned cells this
program feeds it.  Anything else coerces to `NaN`, i.e. `none`. -/

/-- Value of a digit string. -/
def digitsToNat (ds : List Char) : ℕ :=
  ds.foldl (fun a c => 10 * a + (c.toNat - '0'.toNat)) 0

/-- Parse an unsigned decimal literal (`"12"`, `"12."`, `".5"`, `"3.25"`). -/
def parseUnsigned (cs : List Char) : Option ℚ :=
  let ip := cs.takeWhile Char.isDigit
  let rest := cs.dropWhile Char.isDigit
  match rest with
  | [] => if ip.isEmpty then none else some (digitsToNat ip)
  | '.' :: fp =>
      if fp.all Char.isDigit && (!ip.isEmpty || !fp.isEmpty) then
        some ((digitsToNat ip : ℚ) + (digitsToNat fp : ℚ) / (10 : ℚ) ^ fp.length)
      else none
  | _ => none

/-- Parse a signed decimal literal. -/
def parseSigned (cs : List Char) : Option ℚ :=
  match cs with
  | '-' :: rest => (parseUnsigned rest).map (fun q => -q)
  | '+' :: rest => parseUnsigned rest
  | _ => parseUnsigned cs

/-- One-cell numeric coercion; surrounding whitespace is tolerated,
as by the pandas parser. -/
def parseNum (s : String) : Option ℚ :=
  parseSigned (trimChars s.data)

/-! ## Tables -/

/-- A pandas column together with its dtype.  `dateCol` models a
datetime64 column as delivered by the loader (e.g. Excel date cells);
`none` models `NaT`. -/
inductive Col where
  | numCol (vals : List ℚ)
  | strCol (vals : List String)
  | dateCol (vals : List (Option ℤ))
deriving DecidableEq

/-- A DataFrame: ordered, named columns. -/
abbrev Table := List (String × Col)

/-- Python `str.lower()` on a column name (character-wise, which agrees
with it on the ASCII names at stake). -/
def lowerStr (s : String) : String :=
  ⟨s.data.map Char.toLower⟩

/-- Lexicographic order on character lists by code point: the order
Python uses to compare the strings `groupby` sorts its keys by. -/
def listLe : List Char → List Char → Bool
  | [], _ => true
  | _ :: _, [] => false
  | a :: as, b :: bs =>
      decide (a.toNat < b.toNat) || (a == b && listLe as bs)

/-- String comparison by code points (Python `str` ordering). -/
def strLe (a b : String) : Bool :=
  listLe a.data b.data

/-- Number of cells in a column. -/
def colLen : Col → ℕ
  | .numCol v => v.length
  | .strCol v => v.length
  | .dateCol v => v.length

/-- `len(df)`: the common column length (length of the first column). -/
def nRows : Table → ℕ
  | [] => 0
  | (_, c) :: _ => colLen c

/-- Well-formedness: every column has the common length. -/
def wf (t : Table) : Bool :=
  t.all (fun p => colLen p.2 == nRows t)

/-- Ordered column names. -/
def colNames (t : Table) : List String :=
  t.map (·.1)

/-- `df[nm]` as an optional lookup. -/
def lookupCol (t : Table) (nm : String) : Option Col :=
  (t.find? (fun p => p.1 == nm)).map (·.2)

/-- `df[nm]` with an (irrelevant) default for absent names. -/
def getColD (t : Table) (nm : String) : Col :=
  (lookupCol t nm).getD (.strCol [])

/-- `df[nm] = col`: overwrite in place, or append a new column at the end. -/
def setCol : Table → String → Col → Table
  | [], nm, c => [(nm, c)]
  | (n, c0) :: rest, nm, c =>
      if n = nm then (nm, c) :: rest else (n, c0) :: setCol rest nm c

/-! ## Column classification (app.py `get_col`, lines 136-146) -/

/-- Does the (already lowercased) column name contain one of the keywords? -/
def kwMatch (keys : List String) (nm : String) : Bool :=
  keys.any (fun k => hasSub k.data nm.data)

/-- `get_col(keywords)`: first column name containing any keyword. -/
def getColKw (keys : List String) : List String → Option String
  | [] => none
  | nm :: rest => if kwMatch keys nm then some nm else getColKw keys rest

def prodKeys : List String := ["product", "item", "description", "particular"]
def qtyKeys : List String := ["qty", "quantity", "units", "nos"]
def rateKeys : List String := ["rate", "price"]
def amtKeys : List String := ["amount", "total", "value", "net"]
def dateKeys : List String := ["date", "time", "day"]

/-! ## Normalization pipeline (`process_file_stream`, app.py lines 115-165) -/

/-- `df.columns = df.columns.str.lower()`. -/
def lowerCols (t : Table) : Table :=
  t.map (fun p => (lowerStr p.1, p.2))

/-- Apply `clean_currency` to every cell of an object-dtype column
(non-object columns are untouched, per the `dtype == object` test). -/
def cleanCol : Col → Col
  | .strCol vs => .strCol (vs.map cleanStr)
  | c => c

/-- Apply `clean_currency` column-wise (app.py lines 131-133). -/
def cleanTable (t : Table) : Table :=
  t.map (fun p => (p.1, cleanCol p.2))

/-- Lowercased and currency-cleaned table: the state of `df` at the
point where columns are detected. -/
def normTable (t0 : Table) : Table :=
  cleanTable (lowerCols t0)

/-- Element-wise `pd.to_numeric(col, errors="coerce")`; `none` is `NaN`.
On a datetime column pandas yields the underlying integers (`NaT ↦ NaN`). -/
def toNumericOpt : Col → List (Option ℚ)
  | .numCol v => v.map some
  | .strCol v => v.map parseNum
  | .dateCol v => v.map (fun o => o.map (fun z => (z : ℚ)))

/-- `pd.to_numeric(col, errors="coerce").fillna(0)`. -/
def coerceFill (c : Col) : List ℚ :=
  (toNumericOpt c).map (fun o => o.getD 0)

/-- The numeric-dtype columns of a table (`df.select_dtypes(include=[np.number])`). -/
def numericCols (t : Table) : List (List ℚ) :=
  t.filterMap (fun p => match p.2 with | .numCol v => some v | _ => none)

/-- `numeric_cols.sum(axis=1)`: row-wise sum across the given columns. -/
def rowSum (cols : List (List ℚ)) (n : ℕ) : List ℚ :=
  (List.range n).map (fun i => (cols.map (fun v => v.getD i 0)).sum)

/-- The canonical `amount` values produced by the resolver fallback chain
(app.py lines 148-159), for the already-normalized table `t`. -/
def resolveAmountVals (t : Table) : List ℚ :=
  let names := colNames t
  match getColKw amtKeys names with
  | some a => coerceFill (getColD t a)
  | none =>
    match getColKw qtyKeys names, getColKw rateKeys names with
    | some q, some r =>
        -- (to_numeric(qty) * to_numeric(rate)).fillna(0): a NaN factor
        -- makes the product NaN, which fillna turns into 0.
        (List.zip (toNumericOpt (getColD t q)) (toNumericOpt (getColD t r))).map
          (fun p => match p.1, p.2 with
            | some x, some y => x * y
            | _, _ => 0)
    | _, _ =>
        -- `numeric_cols.empty` is true when there is no numeric column
        -- or the frame has no rows; then `df["amount"] = 0` broadcasts.
        if (numericCols t).isEmpty || nRows t = 0 then
          List.replicate (nRows t) 0
        else rowSum (numericCols t) (nRows t)

/-- Result of `process_file_stream` (after the format-specific read):
the normalized table and the detected role columns.  `prod_col` is always
a real column name by the time the function returns. -/
structure ProcResult where
  table : Table
  prodCol : String
  qtyCol : Option String
  dateCol : Option String
deriving DecidableEq

/-- `process_file_stream` from the decoded table onward
(app.py lines 128-165). -/
def processTable (t0 : Table) : ProcResult :=
  let t := normTable t0
  let names := colNames t
  let prod? := getColKw prodKeys names
  let qty? := getColKw qtyKeys names
  let date? := getColKw dateKeys names
  let t2 := setCol t "amount" (.numCol (resolveAmountVals t))
  match prod? with
  | some p => ⟨t2, p, qty?, date?⟩
  | none =>
      ⟨setCol t2 "product" (.strCol (List.replicate (nRows t) "Unknown Item")),
       "product", qty?, date?⟩

/-! ## Metrics & insights engine (`analytics_engine.py`) -/

/-- First column whose lowercased name contains one of the keywords
(the `next((c for c in df.columns if ...), None)` pattern of the engine,
which lowercases the name before testing). -/
def findColLower (keys : List String) (names : List String) : Option String :=
  names.find? (fun c => kwMatch keys (lowerStr c))

/-- The engine's own product-column detection (analytics_engine.py
lines 13 and 86): keywords `product`, `item`, `description` only. -/
def engineProdKeys : List String := ["product", "item", "description"]

def engineProdCol (t : Table) : Option String :=
  findColLower engineProdKeys (colNames t)

/-- Group keys of a column, as used by `groupby`.  String columns group on
their values; for other dtypes the values are rendered (the claims under
verification only exercise string product columns). -/
def colKeys : Col → List String
  | .strCol v => v
  | .numCol v => v.map (fun q => toString q)
  | .dateCol v => v.map (fun o => (o.map toString).getD "NaT")

/-- `df['amount']` when present with numeric dtype. -/
def amountNum (t : Table) : Option (List ℚ) :=
  match lookupCol t "amount" with
  | some (.numCol v) => some v
  | _ => none

/-- `total_revenue = float(df['amount'].sum()) if 'amount' in df.columns
else 0.0` (analytics_engine.py line 89).  A non-numeric `amount` would
make `float(...)` raise in the source; the claims only ever apply this
to resolver output, whose `amount` is numeric. -/
def totalRevenue (t : Table) : ℚ :=
  match lookupCol t "amount" with
  | some (.numCol v) => v.sum
  | _ => 0

/-- `total_orders = int(len(df))`. -/
def totalOrders (t : Table) : ℕ :=
  nRows t

/-- Round to the nearest integer, ties to even: Python `round`. -/
def rndHalfEven (q : ℚ) : ℤ :=
  let f := ⌊q⌋
  let r := q - (f : ℚ)
  if r < 1 / 2 then f
  else if 1 / 2 < r then f + 1
  else if f % 2 = 0 then f else f + 1

/-- Python `round(x, 2)`, with floats modelled as exact rationals. -/
def round2 (q : ℚ) : ℚ :=
  (rndHalfEven (q * 100) : ℚ) / 100

/-- `avg_order_value = total_revenue / total_orders if total_orders > 0
else 0` (line 91). -/
def avgOrderRaw (t : Table) : ℚ :=
  if 0 < totalOrders t then totalRevenue t / (totalOrders t : ℚ) else 0

/-- The `avg_order_value` field of the dashboard record:
`round(avg_order_value, 2)` (line 117). -/
def avgOrderValue (t : Table) : ℚ :=
  round2 (avgOrderRaw t)

/-- `unique_products = int(df[prod_col].nunique()) if prod_col else 0`. -/
def uniqueProducts (t : Table) : ℕ :=
  match engineProdCol t with
  | some pc => ((colKeys (getColD t pc)).dedup).length
  | none => 0

/-! `groupby(prod_col)['amount'].sum()`: accumulate per-key sums
(first-seen order), then sort by group key ascending, as `groupby`
does with its default `sort=True`. -/

/-- Add one `(key, value)` observation to a running list of group sums. -/
def addTo : List (String × ℚ) → String × ℚ → List (String × ℚ)
  | [], p => [p]
  | (k, v) :: rest, p =>
      if k = p.1 then (k, v + p.2) :: rest else (k, v) :: addTo rest p

/-- Per-key sums of a list of observations, keys in first-seen order. -/
def groupIn (l : List (String × ℚ)) : List (String × ℚ) :=
  l.foldl addTo []

/-- Group sums sorted ascending by key: the series
`df.groupby(prod_col)['amount'].sum()`. -/
def gsOf (t : Table) : List (String × ℚ) :=
  match engineProdCol t, amountNum t with
  | some pc, some av =>
      List.insertionSort (fun a b => strLe a.1 b.1 = true)
        (groupIn (List.zip (colKeys (getColD t pc)) av))
  | _, _ => []

/-- Descending-by-value order on group sums.  pandas sorts with numpy
introsort, which is stable (insertion sort) on the small slices at stake
here; a stable descending sort of a key-ascending list of distinct keys
is exactly the lexicographic order: value descending, then key ascending. -/
def byValDesc (a b : String × ℚ) : Prop :=
  b.2 < a.2 ∨ (a.2 = b.2 ∧ strLe a.1 b.1 = true)

instance : DecidableRel byValDesc := fun a b => by
  unfold byValDesc; infer_instance

/-- `sales_by_product` (analytics_engine.py lines 96-98): empty when no
product column is detected, else the group sums sorted descending by
summed amount. -/
def salesByProduct (t : Table) : List (String × ℚ) :=
  List.insertionSort byValDesc (gsOf t)

/-- `series.idxmax()` paired with `series.max()` on a group-sum series:
the first entry attaining the maximal value.  `none` models the
`ValueError` raised on an empty series. -/
def topEntry : List (String × ℚ) → Option (String × ℚ)
  | [] => none
  | g :: rest => some (rest.foldl (fun b x => if b.2 < x.2 then x else b) g)

/-- The narrative insights, modelled structurally: each constructor
carries exactly the data interpolated into the corresponding f-string of
`generate_insights`. -/
inductive Insight where
  | revenue (total : ℚ)
  | topShare (prod : String) (share : ℚ)
  | topPlain (prod : String)
  | anomaly (count : ℕ) (mean : ℚ)
deriving DecidableEq

/-- `generate_insights(df, revenue)` (analytics_engine.py lines 4-35).
`Except.error` models the uncaught `ValueError` that
`groupby(...).sum().idxmax()` raises on a zero-row frame. -/
def generateInsights (t : Table) (revenue : ℚ) : Except Unit (List Insight) :=
  let part2 : Except Unit (List Insight) :=
    match engineProdCol t, amountNum t with
    | some _, some _ =>
        match topEntry (gsOf t) with
        | none => .error ()
        | some (tp, tv) =>
            if 0 < revenue then .ok [.topShare tp (tv / revenue * 100)]
            else .ok [.topPlain tp]
    | _, _ => .ok []
  match part2 with
  | .error e => .error e
  | .ok l2 =>
      let i3 : List Insight :=
        match amountNum t with
        | some av =>
            -- mean() of an empty numeric series is NaN, and NaN > 0 is false
            if 0 < av.length then
              let m := av.sum / (av.length : ℚ)
              if 0 < m then
                let hc := (av.filter (fun a => 2 * m < a)).length
                if 0 < hc then [.anomaly hc m] else []
              else []
            else []
        | none => []
      .ok ([.revenue revenue] ++ l2 ++ i3)

/-! ## Forecaster (`forecast_sales`, analytics_engine.py lines 37-78) -/

/-- Sum of the series values. -/
def sumY (y : List ℚ) : ℚ :=
  ∑ i ∈ Finset.range y.length, y.getD i 0

/-- Sum of the time indices `0, 1, …, n-1`. -/
def sumX (n : ℕ) : ℚ :=
  ∑ i ∈ Finset.range n, (i : ℚ)

/-- Sum of squared time indices. -/
def sumXX (n : ℕ) : ℚ :=
  ∑ i ∈ Finset.range n, (i : ℚ) ^ 2

/-- Sum of index-value products. -/
def sumXY (y : List ℚ) : ℚ :=
  ∑ i ∈ Finset.range y.length, (i : ℚ) * y.getD i 0

/-- Least-squares slope of `y` against `x = 0..n-1`: the line
`np.polyfit(x, y, 1)` computes (`polyfit` solves the least-squares
problem, which for distinct abscissae has this unique closed form). -/
def olsSlope (y : List ℚ) : ℚ :=
  ((y.length : ℚ) * sumXY y - sumX y.length * sumY y) /
    ((y.length : ℚ) * sumXX y.length - sumX y.length ^ 2)

/-- Least-squares intercept. -/
def olsIntercept (y : List ℚ) : ℚ :=
  (sumY y - olsSlope y * sumX y.length) / (y.length : ℚ)

/-- The regression-and-clamp step of `forecast_sales` on the prepared
series (lines 61-76): zero below two points, else the fitted value one
step past the last index, floored at zero. -/
def forecastFromSeries (y : List ℚ) : ℚ :=
  if y.length < 2 then 0
  else max 0 (olsSlope y * (y.length : ℚ) + olsIntercept y)

/-- `pd.to_datetime(col, errors="coerce")` element-wise: a datetime
column passes through, strings are parsed (modelled for ISO `YYYY-MM-DD`
literals, encoded order-preservingly), numbers are epoch values. -/
def parseDate (s : String) : Option ℤ :=
  match s.data with
  | [y1, y2, y3, y4, '-', m1, m2, '-', d1, d2] =>
      if [y1, y2, y3, y4, m1, m2, d1, d2].all Char.isDigit then
        let y := digitsToNat [y1, y2, y3, y4]
        let m := digitsToNat [m1, m2]
        let d := digitsToNat [d1, d2]
        if 1 ≤ m && m ≤ 12 && 1 ≤ d && d ≤ 31 then
          some ((y * 10000 + m * 100 + d : ℕ) : ℤ)
        else none
      else none
  | _ => none

def toDatetime : Col → List (Option ℤ)
  | .dateCol v => v
  | .strCol v => v.map parseDate
  | .numCol v => v.map (fun q => some ⌊q⌋)

/-- The series `y` handed to the regression: if a date-role column is
found, rows with unparseable dates are dropped and the rest sorted
ascending by date; else raw row order.  Either way the `amount` cells
are coerced with `NaN → 0`. -/
def timeSeries (t : Table) (amtc : Col) : List ℚ :=
  match findColLower dateKeys (colNames t) with
  | some dc =>
      let rows := List.zip (toDatetime (getColD t dc)) (toNumericOpt amtc)
      let kept := rows.filterMap
        (fun p => match p.1 with | some d => some (d, p.2) | none => none)
      let sorted := List.insertionSort (fun a b => a.1 ≤ b.1) kept
      sorted.map (fun p => p.2.getD 0)
  | none => (toNumericOpt amtc).map (fun o => o.getD 0)

/-- `forecast_sales(df)`. -/
def forecastSales (t : Table) : ℚ :=
  match lookupCol t "amount" with
  | none => 0
  | some amtc => forecastFromSeries (timeSeries t amtc)

/-! ## Table merger (`pd.concat(all_dfs, ignore_index=True)`, app.py line 202) -/

/-- Default padding cells for a column kind.  pandas pads a column absent
from one of the concatenated frames with `NaN`/`NaT`; the claims under
verification concern only row counts and row order, which are independent
of the pad value. -/
def padOf : Col → ℕ → Col
  | .numCol _, n => .numCol (List.replicate n 0)
  | .strCol _, n => .strCol (List.replicate n "")
  | .dateCol _, n => .dateCol (List.replicate n none)

/-- Concatenate two columns of the same kind (mixed dtypes are rendered
into the first kind; the claims never mix dtypes under one name). -/
def catCols : Col → Col → Col
  | .numCol a, .numCol b => .numCol (a ++ b)
  | .strCol a, .strCol b => .strCol (a ++ b)
  | .dateCol a, .dateCol b => .dateCol (a ++ b)
  | .numCol a, c => .strCol (a.map toString ++ colKeys c)
  | .strCol a, c => .strCol (a ++ colKeys c)
  | .dateCol a, c => .strCol (colKeys (.dateCol a) ++ colKeys c)

/-- The segment a table contributes to the merged column `nm`: its own
column when present, padding of its row count otherwise. -/
def segFor (nm : String) (proto : Col) (t : Table) : Col :=
  match lookupCol t nm with
  | some c => c
  | none => padOf proto (nRows t)

/-- First occurrence of the named column across the tables (fixes the
merged column's kind). -/
def protoFor (nm : String) : List Table → Col
  | [] => .strCol []
  | t :: ts =>
      match lookupCol t nm with
      | some c => c
      | none => protoFor nm ts

/-- Deduplicate keeping the first occurrence of each name. -/
def firstDedup (l : List String) : List String :=
  l.foldl (fun acc x => if x ∈ acc then acc else acc ++ [x]) []

/-- `pd.concat(ts, ignore_index=True)`: union of column names in order
of first appearance; each merged column is the concatenation, in table
order, of the tables' segments. -/
def mergeTables (ts : List Table) : Table :=
  let names := firstDedup (ts.flatMap colNames)
  names.map (fun nm =>
    (nm, (ts.map (segFor nm (protoFor nm ts))).foldr catCols
      (padOf (protoFor nm ts) 0)))

/-! ## Spec-side definitions

These follow the words of the specification / claims (not the source);
they exist only to be compared with the source-derived definitions. -/

/-- The product keyword set as the spec states it (§4.1): it additionally
lists `material`, which the source's `get_col` call does not. -/
def specProdKeys : List String := ["product", "item", "description", "particular", "material"]

/-- The amount keyword set as the spec states it (§4.1). -/
def specAmtKeys : List String :=
  ["amount", "total", "value", "net", "bill amount", "invoice amount", "gross", "sales value"]

/-- Amount-resolution fallback step 3 as the spec states it (§4.3):
coerce every column and use the single column with the largest column
sum (first such column on ties). -/
def specLargestSumCol (t : Table) : Option (List ℚ) :=
  let cands := t.map (fun p => (toNumericOpt p.2).map (fun o => o.getD 0))
  cands.foldl
    (fun best v =>
      match best with
      | none => some v
      | some w => if w.sum < v.sum then some v else some w)
    none

/-! ## Helper lemmas: lookup / setCol / column detection -/

theorem lookupCol_nil (nm : String) : lookupCol ([] : Table) nm = none := rfl

theorem colNames_cons (n : String) (c : Col) (rest : Table) :
    colNames ((n, c) :: rest) = n :: colNames rest := rfl

theorem lookupCol_cons (n : String) (c0 : Col) (rest : Table) (nm : String) :
    lookupCol ((n, c0) :: rest) nm = if n = nm then some c0 else lookupCol rest nm := by
  by_cases h : n = nm
  · simp [lookupCol, List.find?, h]
  · have hb : (n == nm) = false := by simpa using h
    simp [lookupCol, List.find?, hb, h]

theorem lookupCol_setCol_self (t : Table) (nm : String) (c : Col) :
    lookupCol (setCol t nm c) nm = some c := by
  induction t with
  | nil => simp [setCol, lookupCol_cons]
  | cons p rest ih =>
      obtain ⟨n, c0⟩ := p
      by_cases h : n = nm
      · simp [setCol, h, lookupCol_cons]
      · simp [setCol, if_neg h, lookupCol_cons, h, ih]

theorem lookupCol_setCol_ne (t : Table) {nm nm' : String} (c : Col)
    (h : nm' ≠ nm) : lookupCol (setCol t nm c) nm' = lookupCol t nm' := by
  induction t with
  | nil => simp [setCol, lookupCol_cons, Ne.symm h]
  | cons p rest ih =>
      obtain ⟨n, c0⟩ := p
      by_cases hn : n = nm
      · subst hn
        simp [setCol, lookupCol_cons, Ne.symm h]
      · simp [setCol, if_neg hn, lookupCol_cons, ih]

theorem mem_colNames_setCol {t : Table} {nm x : String} {c : Col}
    (h : x ∈ colNames (setCol t nm c)) : x ∈ colNames t ∨ x = nm := by
  induction t with
  | nil => simpa [setCol, colNames] using h
  | cons p rest ih =>
      obtain ⟨n, c0⟩ := p
      by_cases hn : n = nm
      · subst hn
        rw [setCol, if_pos rfl, colNames_cons] at h
        rcases List.mem_cons.mp h with h | h
        · exact Or.inr h
        · exact Or.inl (by rw [colNames_cons]; exact List.mem_cons_of_mem _ h)
      · rw [setCol, if_neg hn, colNames_cons] at h
        rcases List.mem_cons.mp h with h | h
        · exact Or.inl (by rw [colNames_cons, h]; exact List.mem_cons_self _ _)
        · rcases ih h with h' | h'
          · exact Or.inl (by rw [colNames_cons]; exact List.mem_cons_of_mem _ h')
          · exact Or.inr h'

theorem getColKw_eq_some {keys names : List String} {c : String}
    (h : getColKw keys names = some c) :
    kwMatch keys c = true ∧
      ∃ pre suf, names = pre ++ c :: suf ∧ ∀ b ∈ pre, kwMatch keys b = false := by
  induction names with
  | nil => simp [getColKw] at h
  | cons nm rest ih =>
      by_cases hm : kwMatch keys nm
      · simp only [getColKw, if_pos hm, Option.some.injEq] at h
        subst h
        exact ⟨hm, [], rest, rfl, by simp⟩
      · simp only [getColKw, if_neg hm] at h
        obtain ⟨hc, pre, suf, hsplit, hpre⟩ := ih h
        refine ⟨hc, nm :: pre, suf, by simp [hsplit], ?_⟩
        intro b hb
        rcases List.mem_cons.mp hb with hb | hb
        · subst hb; simpa using hm
        · exact hpre b hb

theorem getColKw_eq_none {keys names : List String}
    (h : getColKw keys names = none) : ∀ b ∈ names, kwMatch keys b = false := by
  induction names with
  | nil => simp
  | cons nm rest ih =>
      by_cases hm : kwMatch keys nm
      · simp [getColKw, hm] at h
      · simp only [getColKw, if_neg hm] at h
        intro b hb
        rcases List.mem_cons.mp hb with hb | hb
        · subst hb; simpa using hm
        · exact ih h b hb

theorem getColKw_isSome_of_mem {keys names : List String} {b : String}
    (hb : b ∈ names) (hm : kwMatch keys b = true) :
    (getColKw keys names).isSome := by
  induction names with
  | nil => simp at hb
  | cons nm rest ih =>
      by_cases h : kwMatch keys nm
      · simp [getColKw, h]
      · rcases List.mem_cons.mp hb with hb | hb
        · subst hb; simp [hm] at h
        · simpa [getColKw, h] using ih hb

theorem lookupCol_isSome_of_mem {t : Table} {nm : String}
    (h : nm ∈ colNames t) : (lookupCol t nm).isSome := by
  induction t with
  | nil => simp [colNames] at h
  | cons p rest ih =>
      obtain ⟨n, c0⟩ := p
      rw [colNames_cons] at h
      by_cases hn : n = nm
      · simp [lookupCol_cons, hn]
      · rcases List.mem_cons.mp h with h' | h'
        · exact absurd h'.symm hn
        · simpa [lookupCol_cons, hn] using ih h'

theorem mem_of_lookupCol_eq_some {t : Table} {nm : String} {c : Col}
    (h : lookupCol t nm = some c) : (nm, c) ∈ t := by
  induction t with
  | nil => simp [lookupCol] at h
  | cons p rest ih =>
      obtain ⟨n, c0⟩ := p
      by_cases hn : n = nm
      · subst hn
        rw [lookupCol_cons, if_pos rfl] at h
        have : c0 = c := by simpa using h
        subst this
        exact List.mem_cons_self _ _
      · rw [lookupCol_cons, if_neg hn] at h
        exact List.mem_cons_of_mem _ (ih h)

theorem colLen_of_wf {t : Table} (hw : wf t = true) {nm : String} {c : Col}
    (h : lookupCol t nm = some c) : colLen c = nRows t := by
  have hm := mem_of_lookupCol_eq_some h
  have := (List.all_eq_true.mp hw) _ hm
  simpa using this

/-! ## Helper lemmas: ordinary least squares -/

/-- Residual sum of squares of the line `a·x + b` against the series. -/
def sse (y : List ℚ) (a b : ℚ) : ℚ :=
  ∑ i ∈ Finset.range y.length, (y.getD i 0 - a * i - b) ^ 2

theorem sumX_eq (n : ℕ) : sumX n = (n : ℚ) * ((n : ℚ) - 1) / 2 := by
  induction n with
  | zero => simp [sumX]
  | succ m ih =>
      rw [sumX, Finset.sum_range_succ, ← sumX, ih]
      push_cast
      ring

theorem sumXX_eq (n : ℕ) :
    sumXX n = (n : ℚ) * ((n : ℚ) - 1) * (2 * (n : ℚ) - 1) / 6 := by
  induction n with
  | zero => simp [sumXX]
  | succ m ih =>
      rw [sumXX, Finset.sum_range_succ, ← sumXX, ih]
      push_cast
      ring

/-- The least-squares denominator. -/
def olsDen (n : ℕ) : ℚ :=
  (n : ℚ) * sumXX n - sumX n ^ 2

theorem olsDen_eq (n : ℕ) :
    olsDen n = (n : ℚ) ^ 2 * ((n : ℚ) ^ 2 - 1) / 12 := by
  rw [olsDen, sumX_eq, sumXX_eq]
  ring

theorem olsDen_pos {n : ℕ} (h : 2 ≤ n) : 0 < olsDen n := by
  rw [olsDen_eq]
  have hn : (2 : ℚ) ≤ (n : ℚ) := by exact_mod_cast h
  have h4 : (4 : ℚ) ≤ (n : ℚ) ^ 2 := by nlinarith
  have h1 : (0 : ℚ) < (n : ℚ) ^ 2 - 1 := by linarith
  have h0 : (0 : ℚ) < (n : ℚ) ^ 2 := by linarith
  positivity

theorem sum_resid (y : List ℚ) (a b : ℚ) :
    ∑ i ∈ Finset.range y.length, (y.getD i 0 - a * i - b) =
      sumY y - a * sumX y.length - y.length * b := by
  rw [sumY, sumX, Finset.sum_sub_distrib, Finset.sum_sub_distrib,
    ← Finset.mul_sum, Finset.sum_const, Finset.card_range, nsmul_eq_mul]

theorem sum_xresid (y : List ℚ) (a b : ℚ) :
    ∑ i ∈ Finset.range y.length, (i : ℚ) * (y.getD i 0 - a * i - b) =
      sumXY y - a * sumXX y.length - b * sumX y.length := by
  have : ∀ i ∈ Finset.range y.length,
      (i : ℚ) * (y.getD i 0 - a * i - b) =
        (i : ℚ) * y.getD i 0 - a * (i : ℚ) ^ 2 - b * (i : ℚ) := by
    intro i _
    ring
  rw [Finset.sum_congr rfl this, Finset.sum_sub_distrib, Finset.sum_sub_distrib,
    ← Finset.mul_sum, ← Finset.mul_sum, sumXY, sumXX, sumX]

/-- First normal equation: the fitted residuals sum to zero. -/
theorem normal_eq_one {y : List ℚ} (h : 2 ≤ y.length) :
    ∑ i ∈ Finset.range y.length,
      (y.getD i 0 - olsSlope y * i - olsIntercept y) = 0 := by
  have hn : (y.length : ℚ) ≠ 0 := by
    have : 0 < y.length := lt_of_lt_of_le (by norm_num) h
    exact_mod_cast this.ne'
  rw [sum_resid, olsIntercept]
  field_simp

/-- Second normal equation: the fitted residuals are orthogonal to x. -/
theorem normal_eq_two {y : List ℚ} (h : 2 ≤ y.length) :
    ∑ i ∈ Finset.range y.length,
      (i : ℚ) * (y.getD i 0 - olsSlope y * i - olsIntercept y) = 0 := by
  have hn : (y.length : ℚ) ≠ 0 := by
    have : 0 < y.length := lt_of_lt_of_le (by norm_num) h
    exact_mod_cast this.ne'
  have hden : olsDen y.length ≠ 0 := (olsDen_pos h).ne'
  have hden' : (y.length : ℚ) * sumXX y.length - sumX y.length ^ 2 ≠ 0 := by
    rw [olsDen] at hden
    exact hden
  have hs : olsSlope y * olsDen y.length =
      (y.length : ℚ) * sumXY y - sumX y.length * sumY y := by
    rw [olsSlope, olsDen]
    exact div_mul_cancel₀ _ hden'
  have hi : olsIntercept y * (y.length : ℚ) =
      sumY y - olsSlope y * sumX y.length := by
    rw [olsIntercept]
    exact div_mul_cancel₀ _ hn
  rw [sum_xresid]
  have key : (y.length : ℚ) *
      (sumXY y - olsSlope y * sumXX y.length - olsIntercept y * sumX y.length) = 0 := by
    have expand : (y.length : ℚ) *
        (sumXY y - olsSlope y * sumXX y.length - olsIntercept y * sumX y.length) =
        ((y.length : ℚ) * sumXY y - sumX y.length * sumY y) -
          olsSlope y * olsDen y.length +
          (sumY y - olsSlope y * sumX y.length - olsIntercept y * (y.length : ℚ)) *
            sumX y.length := by
      rw [olsDen]
      ring
    rw [expand, ← hs, hi]
    ring
  have := mul_eq_zero.mp key
  rcases this with h0 | h0
  · exact absurd h0 hn
  · linarith [h0]

/-- The closed-form coefficients minimize the residual sum of squares:
they are the ordinary least-squares fit. -/
theorem sse_min {y : List ℚ} (h : 2 ≤ y.length) (a b : ℚ) :
    sse y (olsSlope y) (olsIntercept y) ≤ sse y a b := by
  set s := olsSlope y
  set c := olsIntercept y
  have decomp : ∀ i ∈ Finset.range y.length,
      (y.getD i 0 - a * i - b) ^ 2 =
        (y.getD i 0 - s * i - c) ^ 2 +
          (2 * ((s - a) * i + (c - b))) * (y.getD i 0 - s * i - c) +
          ((s - a) * i + (c - b)) ^ 2 := by
    intro i _
    ring
  have cross : ∑ i ∈ Finset.range y.length,
      (2 * ((s - a) * i + (c - b))) * (y.getD i 0 - s * i - c) = 0 := by
    have expand : ∀ i ∈ Finset.range y.length,
        (2 * ((s - a) * i + (c - b))) * (y.getD i 0 - s * i - c) =
          2 * (s - a) * ((i : ℚ) * (y.getD i 0 - s * i - c)) +
            2 * (c - b) * (y.getD i 0 - s * i - c) := by
      intro i _
      ring
    rw [Finset.sum_congr rfl expand, Finset.sum_add_distrib,
      ← Finset.mul_sum, ← Finset.mul_sum, normal_eq_one h, normal_eq_two h]
    ring
  have hsse : sse y a b =
      sse y s c + ∑ i ∈ Finset.range y.length, ((s - a) * i + (c - b)) ^ 2 := by
    rw [sse, Finset.sum_congr rfl decomp, Finset.sum_add_distrib,
      Finset.sum_add_distrib, cross, sse]
    ring
  have hnn : 0 ≤ ∑ i ∈ Finset.range y.length, ((s - a) * i + (c - b)) ^ 2 :=
    Finset.sum_nonneg (fun i _ => sq_nonneg _)
  linarith

/-! ## Helper lemmas: sorting relations, lengths, pipeline structure -/

theorem listLe_total : ∀ a b : List Char, listLe a b = true ∨ listLe b a = true
  | [], _ => Or.inl rfl
  | _ :: _, [] => Or.inr rfl
  | a :: as, b :: bs => by
      rcases Nat.lt_trichotomy a.toNat b.toNat with h | h | h
      · left
        simp [listLe, h]
      · have hab : a = b := Char.ext (by
          have : a.val.toNat = b.val.toNat := h
          exact UInt32.toNat.inj this)
        subst hab
        rcases listLe_total as bs with ih | ih
        · left
          simp [listLe, ih]
        · right
          simp [listLe, ih]
      · right
        simp [listLe, h]

theorem listLe_trans :
    ∀ a b c : List Char, listLe a b = true → listLe b c = true → listLe a c = true
  | [], _, _ => fun _ _ => rfl
  | _ :: _, [], _ => by
      intro h
      simp [listLe] at h
  | _ :: _, _ :: _, [] => by
      intro _ h
      simp [listLe] at h
  | a :: as, b :: bs, c :: cs => by
      intro h1 h2
      simp only [listLe, Bool.or_eq_true, Bool.and_eq_true, decide_eq_true_eq,
        beq_iff_eq] at h1 h2 ⊢
      rcases h1 with h1 | ⟨rfl, h1'⟩
      · rcases h2 with h2 | ⟨rfl, _⟩
        · exact Or.inl (h1.trans h2)
        · exact Or.inl h1
      · rcases h2 with h2 | ⟨rfl, h2'⟩
        · exact Or.inl h2
        · exact Or.inr ⟨rfl, listLe_trans as bs cs h1' h2'⟩

theorem strLe_total (a b : String) : strLe a b = true ∨ strLe b a = true :=
  listLe_total a.data b.data

theorem strLe_trans {a b c : String} (h1 : strLe a b = true)
    (h2 : strLe b c = true) : strLe a c = true :=
  listLe_trans a.data b.data c.data h1 h2

instance : IsTotal (String × ℚ) byValDesc := by
  constructor
  intro a b
  rcases lt_trichotomy a.2 b.2 with h | h | h
  · exact Or.inr (Or.inl h)
  · rcases strLe_total a.1 b.1 with hk | hk
    · exact Or.inl (Or.inr ⟨h, hk⟩)
    · exact Or.inr (Or.inr ⟨h.symm, hk⟩)
  · exact Or.inl (Or.inl h)

instance : IsTrans (String × ℚ) byValDesc := by
  constructor
  intro a b c hab hbc
  rcases hab with h1 | ⟨he1, hk1⟩
  · rcases hbc with h2 | ⟨he2, hk2⟩
    · exact Or.inl (h2.trans h1)
    · exact Or.inl (he2 ▸ h1)
  · rcases hbc with h2 | ⟨he2, hk2⟩
    · exact Or.inl (he1 ▸ h2)
    · exact Or.inr ⟨he1.trans he2, strLe_trans hk1 hk2⟩

instance : IsTotal (String × ℚ) (fun a b => strLe a.1 b.1 = true) :=
  ⟨fun a b => strLe_total a.1 b.1⟩

instance : IsTrans (String × ℚ) (fun a b => strLe a.1 b.1 = true) :=
  ⟨fun _ _ _ h1 h2 => strLe_trans h1 h2⟩

theorem toNumericOpt_length (c : Col) : (toNumericOpt c).length = colLen c := by
  cases c <;> simp [toNumericOpt, colLen]

theorem coerceFill_length (c : Col) : (coerceFill c).length = colLen c := by
  rw [coerceFill, List.length_map, toNumericOpt_length]

theorem colKeys_length (c : Col) : (colKeys c).length = colLen c := by
  cases c <;> simp [colKeys, colLen]

theorem cleanCol_colLen (c : Col) : colLen (cleanCol c) = colLen c := by
  cases c <;> simp [cleanCol, colLen]

theorem nRows_lowerCols (t : Table) : nRows (lowerCols t) = nRows t := by
  cases t with
  | nil => rfl
  | cons p rest => obtain ⟨n, c⟩ := p; rfl

theorem nRows_cleanTable (t : Table) : nRows (cleanTable t) = nRows t := by
  cases t with
  | nil => rfl
  | cons p rest =>
      obtain ⟨n, c⟩ := p
      simp [cleanTable, nRows, cleanCol_colLen]

theorem nRows_normTable (t : Table) : nRows (normTable t) = nRows t := by
  rw [normTable, nRows_cleanTable, nRows_lowerCols]

theorem lookupCol_cleanTable (t : Table) (nm : String) :
    lookupCol (cleanTable t) nm = (lookupCol t nm).map cleanCol := by
  induction t with
  | nil => rfl
  | cons p rest ih =>
      obtain ⟨n, c⟩ := p
      by_cases h : n = nm
      · simp [cleanTable, lookupCol_cons, h]
      · simp only [cleanTable, List.map_cons] at ih ⊢
        rw [lookupCol_cons, if_neg h, lookupCol_cons, if_neg h, ih]

theorem colNames_cleanTable (t : Table) : colNames (cleanTable t) = colNames t := by
  simp [cleanTable, colNames]

theorem colNames_lowerCols (t : Table) :
    colNames (lowerCols t) = (colNames t).map lowerStr := by
  simp [lowerCols, colNames]

theorem wf_cleanTable {t : Table} (h : wf t = true) : wf (cleanTable t) = true := by
  rw [wf, List.all_eq_true]
  intro p hp
  rw [cleanTable, List.mem_map] at hp
  obtain ⟨q, hq, rfl⟩ := hp
  have := (List.all_eq_true.mp h) q hq
  simp only [beq_iff_eq] at this ⊢
  rw [cleanCol_colLen, nRows_cleanTable, this]

theorem wf_lowerCols {t : Table} (h : wf t = true) : wf (lowerCols t) = true := by
  rw [wf, List.all_eq_true]
  intro p hp
  rw [lowerCols, List.mem_map] at hp
  obtain ⟨q, hq, rfl⟩ := hp
  have := (List.all_eq_true.mp h) q hq
  simp only [beq_iff_eq] at this ⊢
  rw [nRows_lowerCols, this]

theorem wf_normTable {t : Table} (h : wf t = true) : wf (normTable t) = true :=
  wf_cleanTable (wf_lowerCols h)

/-- The resolved amount column always has one value per row. -/
theorem resolveAmountVals_length {t : Table} (hw : wf t = true) :
    (resolveAmountVals t).length = nRows t := by
  rw [resolveAmountVals]
  cases ha : getColKw amtKeys (colNames t) with
  | some a =>
      obtain ⟨_, pre, suf, hsplit, _⟩ := getColKw_eq_some ha
      have hmem : a ∈ colNames t := by rw [hsplit]; simp
      obtain ⟨c, hc⟩ := Option.isSome_iff_exists.mp (lookupCol_isSome_of_mem hmem)
      simp only [getColD, hc, Option.getD_some, coerceFill_length]
      exact colLen_of_wf hw hc
  | none =>
      simp only
      cases hq : getColKw qtyKeys (colNames t) with
      | some q =>
          cases hr : getColKw rateKeys (colNames t) with
          | some r =>
              obtain ⟨_, preq, sufq, hsq, _⟩ := getColKw_eq_some hq
              have hmq : q ∈ colNames t := by rw [hsq]; simp
              obtain ⟨cq, hcq⟩ := Option.isSome_iff_exists.mp (lookupCol_isSome_of_mem hmq)
              obtain ⟨_, prer, sufr, hsr, _⟩ := getColKw_eq_some hr
              have hmr : r ∈ colNames t := by rw [hsr]; simp
              obtain ⟨cr, hcr⟩ := Option.isSome_iff_exists.mp (lookupCol_isSome_of_mem hmr)
              simp only [getColD, hcq, hcr, Option.getD_some, List.length_map,
                List.length_zip, toNumericOpt_length]
              rw [colLen_of_wf hw hcq, colLen_of_wf hw hcr, min_self]
          | none =>
              simp only
              by_cases he : (numericCols t).isEmpty || nRows t == 0
              · have he' : (numericCols t).isEmpty ∨ nRows t = 0 := by
                  simpa using he
                rw [if_pos (by simpa using he')]
                exact List.length_replicate _ _
              · have he' : ¬((numericCols t).isEmpty ∨ nRows t = 0) := by
                  simpa using he
                rw [if_neg (by simpa using he')]
                simp [rowSum]
      | none =>
          simp only
          by_cases he : (numericCols t).isEmpty ∨ nRows t = 0
          · rw [if_pos (by simpa using he)]
            exact List.length_replicate _ _
          · rw [if_neg (by simpa using he)]
            simp [rowSum]

/-! ## Helper lemmas: table merger -/

/-- The numeric values a table holds under a column name (empty when the
column is absent or non-numeric). -/
def numVals (t : Table) (nm : String) : List ℚ :=
  match lookupCol t nm with
  | some (.numCol v) => v
  | _ => []

theorem colLen_catCols (a b : Col) :
    colLen (catCols a b) = colLen a + colLen b := by
  cases a <;> cases b <;> simp [catCols, colLen, colKeys_length, colKeys]

theorem colLen_padOf (c : Col) (n : ℕ) : colLen (padOf c n) = n := by
  cases c <;> simp [padOf, colLen]

theorem colLen_foldr_catCols (segs : List Col) (init : Col) :
    colLen (segs.foldr catCols init) = (segs.map colLen).sum + colLen init := by
  induction segs with
  | nil => simp
  | cons c rest ih => simp [colLen_catCols, ih, Nat.add_assoc]

theorem colLen_segFor {t : Table} (hw : wf t = true) (nm : String) (proto : Col) :
    colLen (segFor nm proto t) = nRows t := by
  rw [segFor]
  cases h : lookupCol t nm with
  | none => simp [colLen_padOf]
  | some c => exact colLen_of_wf hw h

theorem mem_firstDedup_step (acc : List String) (x a : String) :
    a ∈ (if x ∈ acc then acc else acc ++ [x]) ↔ a ∈ acc ∨ a = x := by
  by_cases h : x ∈ acc
  · rw [if_pos h]
    constructor
    · exact Or.inl
    · rintro (ha | rfl)
      · exact ha
      · exact h
  · rw [if_neg h]
    simp [List.mem_append]

theorem mem_foldl_dedup (l : List String) :
    ∀ (acc : List String) (a : String),
      a ∈ l.foldl (fun acc x => if x ∈ acc then acc else acc ++ [x]) acc ↔
        a ∈ acc ∨ a ∈ l := by
  induction l with
  | nil => intro acc a; simp
  | cons x rest ih =>
      intro acc a
      rw [List.foldl_cons, ih]
      rw [mem_firstDedup_step]
      constructor
      · rintro ((ha | rfl) | ha)
        · exact Or.inl ha
        · exact Or.inr (List.mem_cons_self _ _)
        · exact Or.inr (List.mem_cons_of_mem _ ha)
      · rintro (ha | ha)
        · exact Or.inl (Or.inl ha)
        · rcases List.mem_cons.mp ha with rfl | ha
          · exact Or.inl (Or.inr rfl)
          · exact Or.inr ha

theorem mem_firstDedup (l : List String) (a : String) :
    a ∈ firstDedup l ↔ a ∈ l := by
  rw [firstDedup, mem_foldl_dedup]
  simp

theorem foldl_dedup_length_le (l : List String) :
    ∀ acc : List String,
      acc.length ≤ (l.foldl (fun acc x => if x ∈ acc then acc else acc ++ [x]) acc).length := by
  induction l with
  | nil => intro acc; simp
  | cons x rest ih =>
      intro acc
      refine le_trans ?_ (ih _)
      by_cases h : x ∈ acc <;> simp [h]

theorem firstDedup_eq_nil_iff (l : List String) : firstDedup l = [] ↔ l = [] := by
  constructor
  · intro h
    cases l with
    | nil => rfl
    | cons x rest =>
        exfalso
        have := foldl_dedup_length_le rest [x]
        rw [firstDedup, List.foldl_cons, if_neg (List.not_mem_nil x),
          List.nil_append] at h
        rw [h] at this
        simp at this
  · intro h
    rw [h]
    rfl

theorem lookupCol_map_mk (names : List String) (f : String → Col) (x : String) :
    lookupCol (names.map (fun nm => (nm, f nm))) x =
      if x ∈ names then some (f x) else none := by
  induction names with
  | nil => simp [lookupCol_nil]
  | cons n rest ih =>
      rw [List.map_cons, lookupCol_cons]
      by_cases h : n = x
      · subst h
        simp
      · rw [if_neg h, ih]
        by_cases hm : x ∈ rest
        · simp [hm, List.mem_cons]
        · have : ¬x ∈ n :: rest := by
            rw [List.mem_cons]
            rintro (rfl | hx)
            · exact h rfl
            · exact hm hx
          simp [hm, this]

theorem colNames_eq_nil_iff (t : Table) : colNames t = [] ↔ t = [] := by
  cases t <;> simp [colNames]

/-- The common length of every merged column. -/
theorem colLen_merged {ts : List Table} (hw : ∀ t ∈ ts, wf t = true)
    (nm : String) (proto : Col) :
    colLen ((ts.map (segFor nm proto)).foldr catCols (padOf proto 0)) =
      (ts.map nRows).sum := by
  rw [colLen_foldr_catCols, colLen_padOf, Nat.add_zero, List.map_map]
  congr 1
  apply List.map_congr_left
  intro t ht
  exact colLen_segFor (hw t ht) nm proto

/-! ## Pipeline structure lemmas shared by several claims -/

/-- The resolver writes exactly `resolveAmountVals` under the name
`amount`, whatever else it does. -/
theorem lookupCol_processTable_amount (t0 : Table) :
    lookupCol (processTable t0).table ("amount") =
      some (.numCol (resolveAmountVals (normTable t0))) := by
  rw [processTable]
  cases hp : getColKw prodKeys (colNames (normTable t0)) with
  | some p => exact lookupCol_setCol_self _ _ _
  | none =>
      simp only
      rw [lookupCol_setCol_ne _ _ (by decide)]
      exact lookupCol_setCol_self _ _ _

/-! ## Helper lemmas: group sums -/

/-- Association-list lookup on a group-sum list. -/
def lookupV (p : String) (l : List (String × ℚ)) : Option ℚ :=
  (l.find? (fun g => g.1 == p)).map (·.2)

/-- Total of the observations carrying key `p`: the summed amount of
product `p`, straight from the raw rows. -/
def fsum (p : String) (l : List (String × ℚ)) : ℚ :=
  ((l.filter (fun g => g.1 == p)).map (·.2)).sum

theorem lookupV_nil (p : String) : lookupV p [] = none := rfl

theorem lookupV_cons (p : String) (k : String) (v : ℚ) (rest : List (String × ℚ)) :
    lookupV p ((k, v) :: rest) = if k = p then some v else lookupV p rest := by
  by_cases h : k = p
  · simp [lookupV, List.find?, h]
  · have hb : (k == p) = false := by simpa using h
    simp [lookupV, List.find?, hb, h]

theorem addTo_nil (x : String × ℚ) : addTo [] x = [x] := rfl

theorem addTo_cons (k : String) (v : ℚ) (rest : List (String × ℚ)) (x : String × ℚ) :
    addTo ((k, v) :: rest) x =
      if k = x.1 then (k, v + x.2) :: rest else (k, v) :: addTo rest x := rfl

theorem lookupV_addTo (acc : List (String × ℚ)) (x : String × ℚ) (p : String) :
    lookupV p (addTo acc x) =
      if x.1 = p then some ((lookupV p acc).getD 0 + x.2) else lookupV p acc := by
  induction acc with
  | nil =>
      by_cases h : x.1 = p
      · rw [addTo_nil, lookupV_nil]
        cases x with
        | mk a b => simp_all [lookupV_cons]
      · cases x with
        | mk a b =>
            simp only at h
            simp [addTo_nil, lookupV_nil, lookupV_cons, h]
  | cons g rest ih =>
      obtain ⟨k, v⟩ := g
      rw [addTo_cons]
      by_cases hk : k = x.1
      · rw [if_pos hk]
        by_cases hp : k = p
        · subst hp
          rw [lookupV_cons, lookupV_cons, if_pos rfl, if_pos rfl, if_pos hk.symm]
          simp
        · have hxp : ¬x.1 = p := fun h => hp (hk.trans h)
          rw [lookupV_cons, lookupV_cons, if_neg hp, if_neg hp, if_neg hxp]
      · rw [if_neg hk]
        by_cases hp : k = p
        · subst hp
          have hxp : ¬x.1 = k := fun h => hk h.symm
          rw [lookupV_cons, lookupV_cons, if_pos rfl, if_pos rfl, if_neg hxp]
        · rw [lookupV_cons, lookupV_cons, if_neg hp, if_neg hp, ih]

theorem fsum_cons (p : String) (x : String × ℚ) (l : List (String × ℚ)) :
    fsum p (x :: l) = (if x.1 = p then x.2 else 0) + fsum p l := by
  by_cases h : x.1 = p
  · have hb : (x.1 == p) = true := by simpa using h
    simp [fsum, List.filter, hb, h]
  · have hb : (x.1 == p) = false := by simpa using h
    simp [fsum, List.filter, hb, h]

theorem lookupV_foldl_addTo (l : List (String × ℚ)) :
    ∀ (acc : List (String × ℚ)) (p : String),
      lookupV p (l.foldl addTo acc) =
        match lookupV p acc with
        | some v => some (v + fsum p l)
        | none => if p ∈ l.map (·.1) then some (fsum p l) else none := by
  induction l with
  | nil =>
      intro acc p
      cases h : lookupV p acc <;> simp [fsum, h]
  | cons x rest ih =>
      intro acc p
      have step := lookupV_addTo acc x p
      rw [List.foldl_cons, ih (addTo acc x) p, step]
      by_cases hx : x.1 = p
      · rw [if_pos hx]
        cases h : lookupV p acc with
        | none => simp [fsum_cons, hx, h, add_assoc]
        | some v => simp [fsum_cons, hx, h, add_assoc]
      · rw [if_neg hx]
        cases h : lookupV p acc with
        | none =>
            have hx' : ¬p = x.1 := fun h' => hx h'.symm
            simp only [fsum_cons, if_neg hx, zero_add, List.map_cons, List.mem_cons]
            by_cases hm : p ∈ rest.map (·.1) <;> simp [hm, hx']
        | some v => simp [fsum_cons, hx, h]

/-- What `groupIn` computes: the per-key sum for every key present. -/
theorem lookupV_groupIn (l : List (String × ℚ)) (p : String) :
    lookupV p (groupIn l) =
      if p ∈ l.map (·.1) then some (fsum p l) else none := by
  have := lookupV_foldl_addTo l [] p
  simpa [groupIn, lookupV_nil] using this

/-- Keys of the accumulated group sums. -/
theorem keys_addTo (acc : List (String × ℚ)) (x : String × ℚ) :
    (addTo acc x).map (·.1) =
      if x.1 ∈ acc.map (·.1) then acc.map (·.1) else acc.map (·.1) ++ [x.1] := by
  induction acc with
  | nil => simp [addTo_nil]
  | cons g rest ih =>
      obtain ⟨k, v⟩ := g
      rw [addTo_cons]
      by_cases hk : k = x.1
      · subst hk
        simp
      · have hk' : ¬x.1 = k := fun h => hk h.symm
        rw [if_neg hk, List.map_cons, List.map_cons, ih]
        by_cases hm : x.1 ∈ rest.map (·.1) <;>
          simp [hm, List.mem_cons, hk']

theorem nodup_keys_addTo {acc : List (String × ℚ)}
    (h : (acc.map (·.1)).Nodup) (x : String × ℚ) :
    ((addTo acc x).map (·.1)).Nodup := by
  rw [keys_addTo]
  by_cases hm : x.1 ∈ acc.map (·.1)
  · simpa [hm] using h
  · rw [if_neg hm, List.nodup_append]
    refine ⟨h, List.nodup_singleton _, ?_⟩
    intro a ha hb
    rw [List.mem_singleton] at hb
    subst hb
    exact hm ha

theorem nodup_keys_groupIn (l : List (String × ℚ)) :
    ((groupIn l).map (·.1)).Nodup := by
  suffices h : ∀ acc : List (String × ℚ), (acc.map (·.1)).Nodup →
      ((l.foldl addTo acc).map (·.1)).Nodup by
    exact h [] (by simp)
  induction l with
  | nil => intro acc h; simpa using h
  | cons x rest ih =>
      intro acc h
      exact ih _ (nodup_keys_addTo h x)

theorem addTo_ne_nil (acc : List (String × ℚ)) (x : String × ℚ) :
    addTo acc x ≠ [] := by
  cases acc with
  | nil => simp [addTo_nil]
  | cons g rest =>
      obtain ⟨k, v⟩ := g
      rw [addTo_cons]
      by_cases h : k = x.1 <;> simp [h]

theorem foldl_addTo_ne_nil (l : List (String × ℚ)) :
    ∀ acc : List (String × ℚ), acc ≠ [] → l.foldl addTo acc ≠ [] := by
  induction l with
  | nil => intro acc ha; simpa using ha
  | cons y ys ih =>
      intro acc _
      exact ih (addTo acc y) (addTo_ne_nil acc y)

theorem groupIn_ne_nil {l : List (String × ℚ)} (h : l ≠ []) :
    groupIn l ≠ [] := by
  cases l with
  | nil => exact absurd rfl h
  | cons x rest =>
      exact foldl_addTo_ne_nil rest (addTo [] x) (addTo_ne_nil [] x)

/-- With duplicate-free keys, lookup is permutation-invariant. -/
theorem lookupV_eq_some_iff {l : List (String × ℚ)}
    (h : (l.map (·.1)).Nodup) (p : String) (v : ℚ) :
    lookupV p l = some v ↔ (p, v) ∈ l := by
  induction l with
  | nil => simp [lookupV_nil]
  | cons g rest ih =>
      obtain ⟨k, w⟩ := g
      rw [List.map_cons, List.nodup_cons] at h
      rw [lookupV_cons]
      by_cases hk : k = p
      · subst hk
        rw [if_pos rfl]
        constructor
        · intro hv
          have : w = v := by simpa using hv
          subst this
          exact List.mem_cons_self _ _
        · intro hm
          rcases List.mem_cons.mp hm with hm | hm
          · simp only [Prod.mk.injEq] at hm
            rw [hm.2]
          · exact absurd (List.mem_map_of_mem (·.1) hm) (by simpa using h.1)
      · rw [if_neg hk, ih h.2]
        constructor
        · exact fun hm => List.mem_cons_of_mem _ hm
        · intro hm
          rcases List.mem_cons.mp hm with hm | hm
          · exact absurd (congrArg Prod.fst hm).symm hk
          · exact hm

theorem lookupV_eq_none_iff (l : List (String × ℚ)) (p : String) :
    lookupV p l = none ↔ p ∉ l.map (·.1) := by
  induction l with
  | nil => simp [lookupV_nil]
  | cons g rest ih =>
      obtain ⟨k, w⟩ := g
      rw [lookupV_cons]
      by_cases hk : k = p
      · simp [hk]
      · have hk' : ¬p = k := fun h => hk h.symm
        simp [hk, ih, hk']

theorem lookupV_perm {l l' : List (String × ℚ)} (hp : l.Perm l')
    (h : (l.map (·.1)).Nodup) (p : String) : lookupV p l = lookupV p l' := by
  have h' : (l'.map (·.1)).Nodup := ((hp.map (·.1)).nodup_iff).mp h
  cases hv : lookupV p l with
  | none =>
      have := (lookupV_eq_none_iff l p).mp hv
      have : p ∉ l'.map (·.1) := fun hm => this ((hp.map (·.1)).mem_iff.mpr hm)
      exact ((lookupV_eq_none_iff l' p).mpr this).symm
  | some v =>
      have := (lookupV_eq_some_iff h p v).mp hv
      exact ((lookupV_eq_some_iff h' p v).mpr (hp.mem_iff.mp this)).symm

/-! ## Helper lemmas: the value normalizer -/

/-- The slash-dash marker as a character list. -/
def slashDash : List Char := ['/', '-']

theorem dropWhile_idem (p : Char → Bool) (l : List Char) :
    List.dropWhile p (List.dropWhile p l) = List.dropWhile p l := by
  induction l with
  | nil => simp
  | cons c rest ih =>
      rw [List.dropWhile_cons]
      by_cases h : p c
      · simpa [h] using ih
      · simp [List.dropWhile_cons, h]

theorem dropWhile_trimChars (l : List Char) :
    List.dropWhile isWS (trimChars l) = trimChars l := by
  unfold trimChars
  cases hu : List.dropWhile isWS l with
  | nil => simp
  | cons c u' =>
      have hpc : isWS c = false := by
        have := List.head?_dropWhile_not isWS l
        rw [hu] at this
        simpa using this
      rw [List.reverse_cons, List.dropWhile_append]
      by_cases he : (List.dropWhile isWS u'.reverse).isEmpty
      · simp only [he, if_pos, List.dropWhile_cons, hpc, Bool.false_eq_true,
          if_false, List.dropWhile_nil]
        simp [List.dropWhile_cons, hpc]
      · simp only [he, Bool.false_eq_true, if_false]
        rw [List.reverse_append]
        simp only [List.reverse_cons, List.reverse_nil, List.nil_append,
          List.singleton_append]
        simp [List.dropWhile_cons, hpc]

theorem trimChars_idem (l : List Char) :
    trimChars (trimChars l) = trimChars l := by
  conv_lhs => rw [trimChars, dropWhile_trimChars]
  rw [trimChars, List.reverse_reverse, dropWhile_idem]

theorem mem_trimChars {x : Char} {l : List Char} (h : x ∈ trimChars l) : x ∈ l := by
  rw [trimChars, List.mem_reverse] at h
  have h1 := (List.dropWhile_sublist isWS).mem h
  rw [List.mem_reverse] at h1
  exact (List.dropWhile_sublist isWS).mem h1

theorem mem_removeSlashDash {x : Char} {l : List Char}
    (h : x ∈ removeSlashDash l) : x ∈ l := by
  induction l using removeSlashDash.induct with
  | case1 => simp [removeSlashDash] at h
  | case2 c => simpa [removeSlashDash] using h
  | case3 c d rest hcd ih =>
      rw [removeSlashDash, if_pos hcd] at h
      exact List.mem_cons_of_mem _ (List.mem_cons_of_mem _ (ih h))
  | case4 c d rest hcd ih =>
      rw [removeSlashDash, if_neg hcd] at h
      rcases List.mem_cons.mp h with h | h
      · simp [h]
      · exact List.mem_cons_of_mem _ (ih h)

/-- If the slash-dash marker does not occur, its removal is the identity. -/
theorem removeSlashDash_eq_self {l : List Char}
    (h : hasSub slashDash l = false) : removeSlashDash l = l := by
  induction l using removeSlashDash.induct with
  | case1 => rfl
  | case2 c => rfl
  | case3 c d rest hcd ih =>
      exfalso
      obtain ⟨hc, hd⟩ := hcd
      subst hc; subst hd
      simp [hasSub, leadsWith, slashDash] at h
  | case4 c d rest hcd ih =>
      rw [removeSlashDash, if_neg hcd, ih]
      rw [hasSub] at h
      exact (Bool.or_eq_false_iff.mp h).2

theorem notMem_filter_self (a : Char) (l : List Char) :
    a ∉ l.filter (· ≠ a) := by
  intro h
  have := (List.mem_filter.mp h).2
  simp at this

theorem mem_cleanChars {x : Char} {l : List Char} (h : x ∈ cleanChars l) :
    x ∈ (l.filter (· ≠ ',')).filter (· ≠ '₹') :=
  mem_removeSlashDash (mem_trimChars h)

theorem comma_notMem_cleanChars (l : List Char) : ',' ∉ cleanChars l := by
  intro h
  have h1 := mem_cleanChars h
  have h2 := (List.mem_filter.mp h1).1
  exact notMem_filter_self ',' l h2

theorem rupee_notMem_cleanChars (l : List Char) : '₹' ∉ cleanChars l := by
  intro h
  exact notMem_filter_self '₹' _ (mem_cleanChars h)

/-- Second-pass behaviour of `clean_currency` on characters: on an output
of the first pass that contains no slash-dash marker, the pass is the
identity. -/
theorem cleanChars_idem {l : List Char}
    (h : hasSub slashDash (cleanChars l) = false) :
    cleanChars (cleanChars l) = cleanChars l := by
  have hf1 : (cleanChars l).filter (· ≠ ',') = cleanChars l :=
    List.filter_eq_self.mpr (fun a ha => by
      have : a ≠ ',' := fun he => comma_notMem_cleanChars l (he ▸ ha)
      simpa using this)
  have hf2 : (cleanChars l).filter (· ≠ '₹') = cleanChars l :=
    List.filter_eq_self.mpr (fun a ha => by
      have : a ≠ '₹' := fun he => rupee_notMem_cleanChars l (he ▸ ha)
      simpa using this)
  have hr : removeSlashDash (cleanChars l) = cleanChars l :=
    removeSlashDash_eq_self h
  have ht : trimChars (cleanChars l) = cleanChars l := by
    rw [cleanChars, trimChars_idem]
  conv_lhs => rw [cleanChars, hf1, hf2, hr, ht]

/-- `clean_currency` at string level, under the same proviso. -/
theorem cleanStr_idem {s : String}
    (h : hasSub slashDash (cleanStr s).data = false) :
    cleanStr (cleanStr s) = cleanStr s := by
  have hd : (cleanStr s).data = cleanChars s.data := rfl
  rw [hd] at h
  show String.mk (cleanChars (cleanChars s.data)) = String.mk (cleanChars s.data)
  rw [cleanChars_idem h]

/-! ## The claims -/

/-- Claim C9 counterexample: the value normalizer is not idempotent on
every cell value.  On the four-character string slash-slash-dash-dash the
first pass removes the middle slash-dash pair, gluing the outer slash and
dash into a fresh marker which only the second pass removes. -/
theorem C9_counterexample :
    cleanStr (cleanStr ("//--")) ≠ cleanStr ("//--") := by decide

/-- Claim C9, amended: re-running the value normalizer is the identity on
every already-cleaned value that does not contain the slash-dash marker
(the first pass can manufacture a new marker out of the pieces it leaves
behind, and only on such values does the second pass act again). -/
theorem C9_thm (s : String)
    (h : hasSub slashDash (cleanStr s).data = false) :
    cleanStr (cleanStr s) = cleanStr s :=
  cleanStr_idem h

/-- Claim C9 witness: the amended idempotence at the spec's own sample
cell, a rupee-prefixed thousands-separated amount with trailing marker. -/
theorem C9_witness :
    hasSub slashDash (cleanStr (" ₹1,200/- ")).data = false ∧
    cleanStr (cleanStr (" ₹1,200/- ")) = cleanStr (" ₹1,200/- ") :=
  ⟨by decide, C9_thm (" ₹1,200/- ") (by decide)⟩

/-- What the column classifier guarantees for one role's keyword list:
a hit is a matching column preceded only by non-matching columns, and a
miss means no column matches. -/
def GetColSpec (keys names : List String) : Prop :=
  (∀ c, getColKw keys names = some c →
    kwMatch keys c = true ∧
      ∃ pre suf, names = pre ++ c :: suf ∧ ∀ b ∈ pre, kwMatch keys b = false) ∧
  (getColKw keys names = none → ∀ b ∈ names, kwMatch keys b = false)

theorem getColSpec_holds (keys names : List String) : GetColSpec keys names :=
  ⟨fun _ h => getColKw_eq_some h, getColKw_eq_none⟩

/-- Claim C2 counterexample: the claimed keyword sets are larger than the
code's.  A column named `material` (resp. `gross`) matches the claimed
product (resp. amount) set but the code maps the role to `None`. -/
theorem C2_counterexample :
    getColKw specProdKeys [("material")] = some ("material") ∧
    getColKw prodKeys [("material")] = none ∧
    getColKw specAmtKeys [("gross")] = some ("gross") ∧
    getColKw amtKeys [("gross")] = none := by decide

/-- Claim C2, amended: each role maps to the first column (in original
order) whose lowercased name contains one of its keywords — product:
{product, item, description, particular}; quantity: {qty, quantity,
units, nos}; rate: {rate, price}; amount: {amount, total, value, net};
date: {date, time, day} — each role scanned independently, `None` on no
match.  Case-insensitivity comes from the pipeline lowercasing the
column names before the five independent scans. -/
theorem C2_thm (t0 : Table) :
    colNames (normTable t0) = (colNames t0).map lowerStr ∧
    GetColSpec prodKeys (colNames (normTable t0)) ∧
    GetColSpec qtyKeys (colNames (normTable t0)) ∧
    GetColSpec rateKeys (colNames (normTable t0)) ∧
    GetColSpec amtKeys (colNames (normTable t0)) ∧
    GetColSpec dateKeys (colNames (normTable t0)) ∧
    ((processTable t0).qtyCol = getColKw qtyKeys (colNames (normTable t0)) ∧
      (processTable t0).dateCol = getColKw dateKeys (colNames (normTable t0))) ∧
    (∀ p, getColKw prodKeys (colNames (normTable t0)) = some p →
      (processTable t0).prodCol = p) := by
  refine ⟨?_, getColSpec_holds _ _, getColSpec_holds _ _, getColSpec_holds _ _,
    getColSpec_holds _ _, getColSpec_holds _ _, ?_, ?_⟩
  · rw [normTable, colNames_cleanTable, colNames_lowerCols]
  · rw [processTable]
    cases hp : getColKw prodKeys (colNames (normTable t0)) <;> simp
  · intro p hp
    rw [processTable, hp]

/-- Claim C2 witness: on columns named `Qty` and `Item`, lowercasing
makes the product scan hit `item` (with the non-matching `qty` before
it) and the quantity scan hit `qty`. -/
theorem C2_witness :
    kwMatch prodKeys ("item") = true ∧
    (∃ pre suf,
      colNames (normTable [(("Qty"), Col.strCol []), (("Item"), Col.strCol [])]) =
        pre ++ ("item") :: suf ∧ ∀ b ∈ pre, kwMatch prodKeys b = false) ∧
    (processTable [(("Qty"), Col.strCol []), (("Item"), Col.strCol [])]).qtyCol =
      some ("qty") := by
  have h := C2_thm [(("Qty"), Col.strCol []), (("Item"), Col.strCol [])]
  have h1 := h.2.1.1 ("item") (by decide)
  exact ⟨h1.1, h1.2, by rw [h.2.2.2.2.2.2.1.1]; decide⟩

/-- Claim C1 counterexample: on a table with two numeric columns (sums 3
and 30) and no role keywords, the code's fallback produces the row-wise
sum `[11, 22]` of both columns, not the largest-column-sum source
`[10, 20]` the claim describes. -/
theorem C1_counterexample :
    lookupCol (processTable [(("aaa"), Col.numCol [1, 2]),
        (("bbb"), Col.numCol [10, 20])]).table ("amount") =
      some (.numCol [11, 22]) ∧
    specLargestSumCol (normTable [(("aaa"), Col.numCol [1, 2]),
        (("bbb"), Col.numCol [10, 20])]) = some [10, 20] ∧
    ([11, 22] : List ℚ) ≠ [10, 20] := by
  refine ⟨?_, ?_, by decide⟩
  · rw [lookupCol_processTable_amount]
    have ha : getColKw amtKeys (colNames (normTable [(("aaa"), Col.numCol [1, 2]),
        (("bbb"), Col.numCol [10, 20])])) = none := by decide
    have hq : getColKw qtyKeys (colNames (normTable [(("aaa"), Col.numCol [1, 2]),
        (("bbb"), Col.numCol [10, 20])])) = none := by decide
    have hn : numericCols (normTable [(("aaa"), Col.numCol [1, 2]),
        (("bbb"), Col.numCol [10, 20])]) = [[1, 2], [10, 20]] := by decide
    have hr : nRows (normTable [(("aaa"), Col.numCol [1, 2]),
        (("bbb"), Col.numCol [10, 20])]) = 2 := by decide
    rw [resolveAmountVals, ha]
    simp only
    rw [hq]
    simp only
    rw [hn, hr, if_neg (by decide)]
    have hrange : List.range 2 = [0, 1] := by decide
    rw [rowSum, hrange]
    simp only [List.map, List.getD, List.sum_cons, List.sum_nil]
    norm_num
  · have hc : (normTable [(("aaa"), Col.numCol [1, 2]),
        (("bbb"), Col.numCol [10, 20])]).map
        (fun p => (toNumericOpt p.2).map (fun o => o.getD 0)) =
        [[1, 2], [10, 20]] := by decide
    rw [specLargestSumCol, hc]
    simp only [List.foldl]
    rw [if_pos (by norm_num [List.sum_cons, List.sum_nil])]

/-- Claim C1, amended: the canonical `amount` column is produced by the
first viable strategy in order: (1) if an amount-role column exists,
coerce it to numeric with unparseable cells becoming 0; (2) else if both
a quantity-role and a rate-role column exist, amount is their
element-wise product (a pair with an unparseable member yields 0); (3)
else, if the table has numeric-dtype columns and at least one row,
amount is the row-wise sum across all numeric-dtype columns (no column
is coerced, and no single largest-sum column is selected); (4) else
amount is 0 for every row. -/
theorem C1_thm (t0 : Table) :
    (∀ a, getColKw amtKeys (colNames (normTable t0)) = some a →
      lookupCol (processTable t0).table ("amount") =
        some (.numCol (coerceFill (getColD (normTable t0) a)))) ∧
    (getColKw amtKeys (colNames (normTable t0)) = none →
      ∀ q r, getColKw qtyKeys (colNames (normTable t0)) = some q →
        getColKw rateKeys (colNames (normTable t0)) = some r →
        lookupCol (processTable t0).table ("amount") =
          some (.numCol
            ((List.zip (toNumericOpt (getColD (normTable t0) q))
                (toNumericOpt (getColD (normTable t0) r))).map
              (fun p => match p.1, p.2 with
                | some x, some y => x * y
                | _, _ => 0)))) ∧
    (getColKw amtKeys (colNames (normTable t0)) = none →
      (getColKw qtyKeys (colNames (normTable t0)) = none ∨
        getColKw rateKeys (colNames (normTable t0)) = none) →
      ¬((numericCols (normTable t0)).isEmpty ∨ nRows (normTable t0) = 0) →
      lookupCol (processTable t0).table ("amount") =
        some (.numCol (rowSum (numericCols (normTable t0)) (nRows (normTable t0))))) ∧
    (getColKw amtKeys (colNames (normTable t0)) = none →
      (getColKw qtyKeys (colNames (normTable t0)) = none ∨
        getColKw rateKeys (colNames (normTable t0)) = none) →
      ((numericCols (normTable t0)).isEmpty ∨ nRows (normTable t0) = 0) →
      lookupCol (processTable t0).table ("amount") =
        some (.numCol (List.replicate (nRows (normTable t0)) 0))) := by
  have hamt := lookupCol_processTable_amount t0
  refine ⟨?_, ?_, ?_, ?_⟩
  · intro a ha
    rw [hamt, resolveAmountVals, ha]
  · intro ha q r hq hr
    rw [hamt, resolveAmountVals, ha]
    simp only
    rw [hq, hr]
  · intro ha hqr he
    rw [hamt, resolveAmountVals, ha]
    simp only
    rcases hqr with hq | hr
    · rw [hq]
      simp only
      rw [if_neg (by simpa using he)]
    · cases hq : getColKw qtyKeys (colNames (normTable t0)) with
      | none =>
          simp only
          rw [if_neg (by simpa using he)]
      | some q =>
          rw [hr]
          simp only
          rw [if_neg (by simpa using he)]
  · intro ha hqr he
    rw [hamt, resolveAmountVals, ha]
    simp only
    rcases hqr with hq | hr
    · rw [hq]
      simp only
      rw [if_pos (by simpa using he)]
    · cases hq : getColKw qtyKeys (colNames (normTable t0)) with
      | none =>
          simp only
          rw [if_pos (by simpa using he)]
      | some q =>
          rw [hr]
          simp only
          rw [if_pos (by simpa using he)]

/-- Claim C1 witness: the spec's own strategy-2 example, a table with
only `qty = [2,3]` and `rate = [10,20]`, resolves `amount = [20,60]`. -/
theorem C1_witness :
    lookupCol (processTable [(("qty"), Col.strCol [("2"), ("3")]),
        (("rate"), Col.strCol [("10"), ("20")])]).table ("amount") =
      some (.numCol [20, 60]) := by
  have h := (C1_thm [(("qty"), Col.strCol [("2"), ("3")]),
      (("rate"), Col.strCol [("10"), ("20")])]).2.1
    (by decide) ("qty") ("rate") (by decide) (by decide)
  rw [h]
  have e1 : toNumericOpt (getColD (normTable [(("qty"), Col.strCol [("2"), ("3")]),
      (("rate"), Col.strCol [("10"), ("20")])]) ("qty")) = [some 2, some 3] := by decide
  have e2 : toNumericOpt (getColD (normTable [(("qty"), Col.strCol [("2"), ("3")]),
      (("rate"), Col.strCol [("10"), ("20")])]) ("rate")) = [some 10, some 20] := by decide
  rw [e1, e2]
  simp only [List.zip, List.zipWith, List.map]
  norm_num

/-- All-numeric merged column: concatenation in table order. -/
theorem foldr_catCols_num (nm : String) :
    ∀ ts : List Table, (∀ t ∈ ts, ∃ v, lookupCol t nm = some (.numCol v)) →
      ∀ w : List ℚ, (ts.map (segFor nm (.numCol w))).foldr catCols (.numCol []) =
        .numCol (ts.flatMap (fun t => numVals t nm)) := by
  intro ts
  induction ts with
  | nil => intro _ w; rfl
  | cons t rest ih =>
      intro hall w
      obtain ⟨v, hv⟩ := hall t (List.mem_cons_self _ _)
      have hseg : segFor nm (.numCol w) t = .numCol v := by
        rw [segFor, hv]
      have hrest := ih (fun u hu => hall u (List.mem_cons_of_mem _ hu)) w
      rw [List.map_cons, List.foldr_cons, hrest, hseg]
      rw [List.flatMap_cons]
      show Col.numCol (v ++ rest.flatMap (fun t => numVals t nm)) = _
      have : numVals t nm = v := by rw [numVals, hv]
      rw [this]

/-- Claim C8: `pd.concat` yields the sum of the row counts, a
well-formed table, and — for a column present with numeric dtype in
every input — the concatenation of the inputs' columns in input order,
with no re-sorting. -/
theorem C8_thm (ts : List Table) (hw : ∀ t ∈ ts, wf t = true) :
    nRows (mergeTables ts) = (ts.map nRows).sum ∧
    wf (mergeTables ts) = true ∧
    (∀ nm, (∀ t ∈ ts, ∃ v, lookupCol t nm = some (.numCol v)) → ts ≠ [] →
      lookupCol (mergeTables ts) nm =
        some (.numCol (ts.flatMap (fun t => numVals t nm)))) := by
  have hrows : nRows (mergeTables ts) = (ts.map nRows).sum := by
    rw [mergeTables]
    cases hn : firstDedup (ts.flatMap colNames) with
    | nil =>
        have hfm := (firstDedup_eq_nil_iff _).mp hn
        have : ∀ t ∈ ts, colNames t = [] := List.flatMap_eq_nil_iff.mp hfm
        simp only [List.map_nil, nRows]
        symm
        apply List.sum_eq_zero
        intro x hx
        rw [List.mem_map] at hx
        obtain ⟨t, ht, rfl⟩ := hx
        have := (colNames_eq_nil_iff t).mp (this t ht)
        rw [this]
        rfl
    | cons n rest =>
        simp only [List.map_cons, nRows]
        exact colLen_merged hw n _
  refine ⟨hrows, ?_, ?_⟩
  · rw [wf, List.all_eq_true]
    intro p hp
    rw [mergeTables, List.mem_map] at hp
    obtain ⟨nm, hnm, rfl⟩ := hp
    simp only [beq_iff_eq]
    rw [hrows]
    exact colLen_merged hw nm _
  · intro nm hall hne
    have hmem : nm ∈ firstDedup (ts.flatMap colNames) := by
      rw [mem_firstDedup, List.mem_flatMap]
      cases ts with
      | nil => exact absurd rfl hne
      | cons t rest =>
          obtain ⟨v, hv⟩ := hall t (List.mem_cons_self _ _)
          exact ⟨t, List.mem_cons_self _ _,
            List.mem_map_of_mem (·.1) (mem_of_lookupCol_eq_some hv)⟩
    have hproto : ∃ w, protoFor nm ts = .numCol w := by
      cases ts with
      | nil => exact absurd rfl hne
      | cons t rest =>
          obtain ⟨v, hv⟩ := hall t (List.mem_cons_self _ _)
          rw [protoFor, hv]
          exact ⟨v, rfl⟩
    obtain ⟨w, hw'⟩ := hproto
    rw [mergeTables, lookupCol_map_mk, if_pos hmem, hw']
    have : padOf (Col.numCol w) 0 = Col.numCol [] := rfl
    rw [this, foldr_catCols_num nm ts hall w]

/-- Claim C8 witness: merging a three-row and a five-row table yields
eight rows, the shared numeric `amount` column concatenated in order. -/
theorem C8_witness :
    nRows (mergeTables [[(("amount"), Col.numCol [1, 2, 3]),
        (("product"), Col.strCol [("a"), ("b"), ("c")])],
      [(("amount"), Col.numCol [4, 5, 6, 7, 8])]]) = 8 ∧
    lookupCol (mergeTables [[(("amount"), Col.numCol [1, 2, 3]),
        (("product"), Col.strCol [("a"), ("b"), ("c")])],
      [(("amount"), Col.numCol [4, 5, 6, 7, 8])]]) ("amount") =
      some (.numCol [1, 2, 3, 4, 5, 6, 7, 8]) := by
  have h := C8_thm [[(("amount"), Col.numCol [1, 2, 3]),
      (("product"), Col.strCol [("a"), ("b"), ("c")])],
    [(("amount"), Col.numCol [4, 5, 6, 7, 8])]] (by decide)
  constructor
  · rw [h.1]
    decide
  · rw [h.2.2 ("amount") ?hall (by decide)]
    · decide
    · intro t ht
      rcases List.mem_cons.mp ht with rfl | ht'
      · exact ⟨[1, 2, 3], rfl⟩
      · rcases List.mem_cons.mp ht' with rfl | h'
        · exact ⟨[4, 5, 6, 7, 8], rfl⟩
        · simp at h'

/-- Claim C5 counterexample: the dashboard's `avg_order_value` field is
`round(total_revenue / total_orders, 2)`, not the bare quotient: with
amounts `[1, 0, 0]` the quotient is `1/3` but the field reads `0.33`. -/
theorem C5_counterexample :
    avgOrderValue [(("product"), Col.strCol [("x"), ("y"), ("z")]),
      (("amount"), Col.numCol [1, 0, 0])] = 33 / 100 ∧
    avgOrderRaw [(("product"), Col.strCol [("x"), ("y"), ("z")]),
      (("amount"), Col.numCol [1, 0, 0])] = 1 / 3 ∧
    (33 / 100 : ℚ) ≠ 1 / 3 := by
  have hl : lookupCol [(("product"), Col.strCol [("x"), ("y"), ("z")]),
      (("amount"), Col.numCol [1, 0, 0])] ("amount") =
      some (Col.numCol [1, 0, 0]) := by decide
  have ho : totalOrders [(("product"), Col.strCol [("x"), ("y"), ("z")]),
      (("amount"), Col.numCol [1, 0, 0])] = 3 := by decide
  have hr : totalRevenue [(("product"), Col.strCol [("x"), ("y"), ("z")]),
      (("amount"), Col.numCol [1, 0, 0])] = 1 := by
    simp only [totalRevenue, hl]
    norm_num
  have hraw : avgOrderRaw [(("product"), Col.strCol [("x"), ("y"), ("z")]),
      (("amount"), Col.numCol [1, 0, 0])] = 1 / 3 := by
    rw [avgOrderRaw, ho, hr, if_pos (by norm_num)]
    norm_num
  refine ⟨?_, hraw, by norm_num⟩
  rw [avgOrderValue, hraw]
  have hf : ⌊(1 : ℚ) / 3 * 100⌋ = 33 := by
    rw [Int.floor_eq_iff]
    norm_num
  simp only [round2, rndHalfEven, hf]
  rw [if_pos (by norm_num)]
  norm_num

/-- Claim C5, amended: `total_revenue` is the sum of the `amount`
column, `total_orders` the row count, `unique_products` the distinct
count of the detected product column (0 with none detected), and
`avg_order_value` is `total_revenue / total_orders` rounded half-even to
two decimal places when there is at least one row, 0 when there are no
rows. -/
theorem C5_thm (t : Table) (v : List ℚ)
    (hv : lookupCol t ("amount") = some (.numCol v)) :
    totalRevenue t = v.sum ∧
    totalOrders t = nRows t ∧
    (0 < nRows t → avgOrderValue t = round2 (v.sum / (nRows t : ℚ))) ∧
    (nRows t = 0 → avgOrderValue t = 0) ∧
    (∀ pc, engineProdCol t = some pc →
      uniqueProducts t = ((colKeys (getColD t pc)).dedup).length) ∧
    (engineProdCol t = none → uniqueProducts t = 0) := by
  have hrev : totalRevenue t = v.sum := by
    simp only [totalRevenue, hv]
  refine ⟨hrev, rfl, ?_, ?_, ?_, ?_⟩
  · intro hpos
    rw [avgOrderValue, avgOrderRaw, totalOrders, if_pos hpos, hrev]
  · intro hzero
    rw [avgOrderValue, avgOrderRaw, totalOrders, if_neg (by rw [hzero]; simp)]
    have hf : ⌊(0 : ℚ) * 100⌋ = 0 := by
      rw [Int.floor_eq_iff]
      norm_num
    simp only [round2, rndHalfEven, hf]
    rw [if_pos (by norm_num)]
    norm_num
  · intro pc hpc
    rw [uniqueProducts, hpc]
  · intro hpc
    rw [uniqueProducts, hpc]

/-- Claim C5 witness: the spec's own example — amounts `[10, 20, 30]`
give `total_revenue = 60`, `total_orders = 3`, `avg_order_value = 20`. -/
theorem C5_witness :
    totalRevenue [(("amount"), Col.numCol [10, 20, 30])] = 60 ∧
    totalOrders [(("amount"), Col.numCol [10, 20, 30])] = 3 ∧
    avgOrderValue [(("amount"), Col.numCol [10, 20, 30])] = 20 := by
  have h := C5_thm [(("amount"), Col.numCol [10, 20, 30])] [10, 20, 30] (by decide)
  have hsum : ([10, 20, 30] : List ℚ).sum = 60 := by norm_num
  have hn : nRows [(("amount"), Col.numCol [10, 20, 30])] = 3 := by decide
  refine ⟨by rw [h.1, hsum], by rw [h.2.1, hn], ?_⟩
  rw [h.2.2.1 (by rw [hn]; norm_num), hsum, hn]
  have hq : (60 : ℚ) / (3 : ℕ) = 20 := by norm_num
  rw [hq]
  have hf : ⌊(20 : ℚ) * 100⌋ = 2000 := by
    rw [Int.floor_eq_iff]
    norm_num
  simp only [round2, rndHalfEven, hf]
  rw [if_pos (by norm_num)]
  norm_num

/-- Claim C7: the resolver's output always carries a numeric `amount`
column with one value per row; when no product-role column is detected a
`product` column filled with the sentinel label is synthesized, and when
one is detected it is a real column of the table; and numeric coercion
is total — a cell that fails to parse contributes 0, never an error. -/
theorem C7_thm (t0 : Table) (hw : wf t0 = true) :
    (∃ vals : List ℚ, lookupCol (processTable t0).table ("amount") =
        some (.numCol vals) ∧ vals.length = nRows t0) ∧
    (getColKw prodKeys (colNames (normTable t0)) = none →
      (processTable t0).prodCol = ("product") ∧
      lookupCol (processTable t0).table ("product") =
        some (.strCol (List.replicate (nRows t0) ("Unknown Item")))) ∧
    (∀ p, getColKw prodKeys (colNames (normTable t0)) = some p →
      (processTable t0).prodCol = p ∧
      ∃ c, lookupCol (processTable t0).table p = some c ∧ colLen c = nRows t0) ∧
    (∀ (c : Col) (i : ℕ), (toNumericOpt c).getD i none = none →
      (coerceFill c).getD i 0 = 0) := by
  refine ⟨?_, ?_, ?_, ?_⟩
  · refine ⟨resolveAmountVals (normTable t0), lookupCol_processTable_amount t0, ?_⟩
    rw [resolveAmountVals_length (wf_normTable hw), nRows_normTable]
  · intro hnone
    rw [processTable, hnone]
    refine ⟨rfl, ?_⟩
    rw [lookupCol_setCol_self, nRows_normTable]
  · intro p hp
    have hkw := (getColKw_eq_some hp).1
    have hne : p ≠ ("amount") := by
      intro he
      rw [he] at hkw
      exact absurd hkw (by decide)
    obtain ⟨_, pre, suf, hsplit, _⟩ := getColKw_eq_some hp
    have hmem : p ∈ colNames (normTable t0) := by rw [hsplit]; simp
    obtain ⟨c, hc⟩ := Option.isSome_iff_exists.mp (lookupCol_isSome_of_mem hmem)
    rw [processTable, hp]
    refine ⟨rfl, c, ?_, ?_⟩
    · rw [lookupCol_setCol_ne _ _ hne]
      exact hc
    · rw [colLen_of_wf (wf_normTable hw) hc, nRows_normTable]
  · intro c i hnone
    rw [coerceFill]
    by_cases hi : i < (toNumericOpt c).length
    · rw [List.getD_eq_getElem _ _ (by simpa using hi), List.getElem_map]
      rw [List.getD_eq_getElem _ _ hi] at hnone
      rw [hnone]
      rfl
    · rw [List.getD_eq_default _ _ (by simpa using hi)]

/-- Claim C7 witness: a table whose only column matches the amount role
and holds one unparseable cell — the output has `amount = [0, 5]`
(failure degraded to 0) and the sentinel `product` column. -/
theorem C7_witness :
    (∃ vals : List ℚ, lookupCol (processTable
        [(("total"), Col.strCol [("abc"), ("5")])]).table ("amount") =
      some (.numCol vals) ∧ vals.length = 2) ∧
    lookupCol (processTable [(("total"), Col.strCol [("abc"), ("5")])]).table
        ("product") =
      some (.strCol (List.replicate 2 ("Unknown Item"))) := by
  have h := C7_thm [(("total"), Col.strCol [("abc"), ("5")])] (by decide)
  constructor
  · obtain ⟨vals, hv, hl⟩ := h.1
    refine ⟨vals, hv, ?_⟩
    rw [hl]
    decide
  · have h2 := h.2.1 (by decide)
    rw [h2.2, show nRows [(("total"), Col.strCol [("abc"), ("5")])] = 2 from by decide]

theorem kwMatch_of_mem {keys : List String} {k nm : String}
    (hk : k ∈ keys) (h : hasSub k.data nm.data = true) : kwMatch keys nm = true := by
  rw [kwMatch, List.any_eq_true]
  exact ⟨k, hk, h⟩

theorem lookupCol_eq_none_of_not_mem {t : Table} {nm : String}
    (h : nm ∉ colNames t) : lookupCol t nm = none := by
  cases hc : lookupCol t nm with
  | none => rfl
  | some c =>
      exact absurd (List.mem_map_of_mem (·.1) (mem_of_lookupCol_eq_some hc)) h

/-- Without an engine-detectable product column the insight list exists
(no raise) and contains no top-performer insight of either form. -/
theorem generateInsights_no_prod {t : Table}
    (he : engineProdCol t = none) (rev : ℚ) :
    ∃ l, generateInsights t rev = .ok l ∧
      (∀ p s, Insight.topShare p s ∉ l) ∧ ∀ p, Insight.topPlain p ∉ l := by
  cases ha : amountNum t with
  | none =>
      refine ⟨[.revenue rev], ?_, by simp, by simp⟩
      simp [generateInsights, he, ha]
  | some av =>
      simp only [generateInsights, he, ha]
      refine ⟨_, rfl, ?_, ?_⟩
      · intro p s
        simp only [List.mem_append, List.mem_singleton]
        rintro ((h | h) | h)
        · exact absurd h (by simp)
        · simp at h
        · split_ifs at h <;> simp_all
      · intro p
        simp only [List.mem_append, List.mem_singleton]
        rintro ((h | h) | h)
        · exact absurd h (by simp)
        · simp at h
        · split_ifs at h <;> simp_all

/-- Claim C10: the engine re-detects the product column with the
strictly smaller keyword set {product, item, description}; on a table
whose only product-like column name contains `particular` (and no name
contains the engine's keywords), the pipeline maps the product role to
that column and synthesizes no sentinel, while the engine detects
nothing — `unique_products = 0`, `sales_by_product` empty, and the
top-performer insight is omitted (without raising). -/
theorem C10_thm (t0 : Table)
    (h1 : ∃ c ∈ colNames (normTable t0), kwMatch [("particular")] c = true)
    (h2 : ∀ c ∈ colNames (normTable t0),
      kwMatch engineProdKeys (lowerStr c) = false) :
    (∃ pc, getColKw prodKeys (colNames (normTable t0)) = some pc ∧
      (processTable t0).prodCol = pc) ∧
    lookupCol (processTable t0).table ("product") = none ∧
    engineProdCol (processTable t0).table = none ∧
    uniqueProducts (processTable t0).table = 0 ∧
    salesByProduct (processTable t0).table = [] ∧
    (∀ rev, ∃ l, generateInsights (processTable t0).table rev = .ok l ∧
      (∀ p s, Insight.topShare p s ∉ l) ∧ ∀ p, Insight.topPlain p ∉ l) := by
  obtain ⟨c0, hc0, hm0⟩ := h1
  have hsub : hasSub ("particular").data c0.data = true := by
    rw [kwMatch, List.any_eq_true] at hm0
    obtain ⟨k, hk, hx⟩ := hm0
    rw [List.mem_singleton] at hk
    rw [hk] at hx
    exact hx
  have hk : kwMatch prodKeys c0 = true :=
    kwMatch_of_mem (by rw [prodKeys]; simp) hsub
  have hsome := getColKw_isSome_of_mem hc0 hk
  obtain ⟨pc, hpc⟩ := Option.isSome_iff_exists.mp hsome
  have hout : (processTable t0).table =
      setCol (normTable t0) ("amount")
        (.numCol (resolveAmountVals (normTable t0))) := by
    rw [processTable, hpc]
  have hprodname : ("product") ∉ colNames (normTable t0) := by
    intro hmem
    have := h2 _ hmem
    rw [show lowerStr ("product") = ("product") from by decide] at this
    exact absurd this (by decide)
  have hlook : lookupCol (processTable t0).table ("product") = none := by
    rw [hout, lookupCol_setCol_ne _ _ (by decide)]
    exact lookupCol_eq_none_of_not_mem hprodname
  have hengine : engineProdCol (processTable t0).table = none := by
    rw [engineProdCol, findColLower, List.find?_eq_none]
    intro x hx
    rcases mem_colNames_setCol (by rw [hout] at hx; exact hx) with hmem | rfl
    · rw [h2 x hmem]
      simp
    · rw [show kwMatch engineProdKeys (lowerStr ("amount")) = false from by decide]
      simp
  refine ⟨⟨pc, hpc, by rw [processTable, hpc]⟩, hlook, hengine, ?_, ?_, ?_⟩
  · rw [uniqueProducts, hengine]
  · rw [salesByProduct, gsOf, hengine]
    rfl
  · intro rev
    exact generateInsights_no_prod hengine rev

/-- Claim C10 witness: columns `Particulars` and `total` — the pipeline
claims `particulars` for the product role, yet the engine reports no
product: zero unique products, empty product breakdown. -/
theorem C10_witness :
    getColKw prodKeys (colNames (normTable [(("Particulars"), Col.strCol [("a"), ("b")]),
      (("total"), Col.strCol [("5"), ("6")])])) = some ("particulars") ∧
    uniqueProducts (processTable [(("Particulars"), Col.strCol [("a"), ("b")]),
      (("total"), Col.strCol [("5"), ("6")])]).table = 0 ∧
    salesByProduct (processTable [(("Particulars"), Col.strCol [("a"), ("b")]),
      (("total"), Col.strCol [("5"), ("6")])]).table = [] := by
  have h := C10_thm [(("Particulars"), Col.strCol [("a"), ("b")]),
      (("total"), Col.strCol [("5"), ("6")])]
    ⟨("particulars"), by decide, by decide⟩ (by decide)
  exact ⟨by decide, h.2.2.2.1, h.2.2.2.2.1⟩

/-- Claim C3 counterexample: with products `[b, a]` and equal amounts
`[10, 10]`, `groupby` pre-sorts the group keys, so the dictionary reads
`{a: 10, b: 10}` — not the first-seen order `{b: 10, a: 10}` the claim's
stable-sort tie-break predicts. -/
theorem C3_counterexample :
    salesByProduct [(("product"), Col.strCol [("b"), ("a")]),
      (("amount"), Col.numCol [10, 10])] = [(("a"), 10), (("b"), 10)] ∧
    [(("a"), (10 : ℚ)), (("b"), 10)] ≠ [(("b"), 10), (("a"), 10)] := by
  constructor
  · decide
  · decide

/-- Claim C3, amended: for every table with an engine-detected product
column and numeric amounts, `sales_by_product` maps each product to its
summed amount and is ordered descending by summed amount, with ties
between equal sums in ascending product-name order (the `groupby`
pre-sorts group keys ascending and the value sort preserves that order
on ties), not first-seen order. -/
theorem C3_thm (t : Table) (pc : String) (av : List ℚ)
    (hpc : engineProdCol t = some pc) (hav : amountNum t = some av) :
    List.Sorted byValDesc (salesByProduct t) ∧
    (salesByProduct t).Pairwise (fun a b => b.2 ≤ a.2) ∧
    (salesByProduct t).Pairwise (fun a b => a.2 = b.2 → strLe a.1 b.1 = true) ∧
    (∀ p, lookupV p (salesByProduct t) =
      if p ∈ (List.zip (colKeys (getColD t pc)) av).map (·.1) then
        some (fsum p (List.zip (colKeys (getColD t pc)) av))
      else none) := by
  have hsorted : List.Sorted byValDesc (salesByProduct t) :=
    List.sorted_insertionSort byValDesc (gsOf t)
  have hgs : gsOf t =
      List.insertionSort (fun a b => strLe a.1 b.1 = true)
        (groupIn (List.zip (colKeys (getColD t pc)) av)) := by
    rw [gsOf, hpc, hav]
  have hnodup_g : ((groupIn (List.zip (colKeys (getColD t pc)) av)).map (·.1)).Nodup :=
    nodup_keys_groupIn _
  have hperm1 : (gsOf t).Perm (groupIn (List.zip (colKeys (getColD t pc)) av)) := by
    rw [hgs]
    exact List.perm_insertionSort _ _
  have hperm2 : (salesByProduct t).Perm (gsOf t) :=
    List.perm_insertionSort _ _
  have hnodup_gs : ((gsOf t).map (·.1)).Nodup :=
    ((hperm1.map (·.1)).nodup_iff).mpr hnodup_g
  have hnodup_s : ((salesByProduct t).map (·.1)).Nodup :=
    ((hperm2.map (·.1)).nodup_iff).mpr hnodup_gs
  refine ⟨hsorted, ?_, ?_, ?_⟩
  · refine hsorted.imp ?_
    intro a b hab
    rcases hab with h | ⟨he, _⟩
    · exact le_of_lt h
    · exact le_of_eq he.symm
  · refine hsorted.imp ?_
    intro a b hab heq
    rcases hab with h | ⟨_, hk⟩
    · exact absurd (heq ▸ h) (lt_irrefl _)
    · exact hk
  · intro p
    rw [lookupV_perm hperm2 hnodup_s p, lookupV_perm hperm1 hnodup_gs p,
      lookupV_groupIn]

/-- Claim C3 witness: products `[x, y]` with amounts `[5, 2]` — the
breakdown is value-sorted and maps `x` to its summed amount `5`. -/
theorem C3_witness :
    List.Sorted byValDesc (salesByProduct [(("product"), Col.strCol [("x"), ("y")]),
      (("amount"), Col.numCol [5, 2])]) ∧
    lookupV ("x") (salesByProduct [(("product"), Col.strCol [("x"), ("y")]),
      (("amount"), Col.numCol [5, 2])]) = some 5 := by
  have h := C3_thm [(("product"), Col.strCol [("x"), ("y")]),
      (("amount"), Col.numCol [5, 2])] ("product") [5, 2] (by decide) (by decide)
  refine ⟨h.1, ?_⟩
  rw [h.2.2.2 ("x"),
    show List.zip (colKeys (getColD [(("product"), Col.strCol [("x"), ("y")]),
        (("amount"), Col.numCol [5, 2])] ("product"))) [(5 : ℚ), 2] =
      [(("x"), (5 : ℚ)), (("y"), 2)] from by decide]
  rw [if_pos (by decide)]
  simp only [fsum, List.filter, List.map]
  norm_num

theorem amountNum_eq_some {t : Table} {av : List ℚ}
    (h : amountNum t = some av) :
    lookupCol t ("amount") = some (.numCol av) := by
  rw [amountNum] at h
  cases hl : lookupCol t ("amount") with
  | none =>
      rw [hl] at h
      simp at h
  | some c =>
      cases c with
      | numCol v =>
          rw [hl] at h
          simp only [Option.some.injEq] at h
          rw [h]
      | strCol v =>
          rw [hl] at h
          simp at h
      | dateCol v =>
          rw [hl] at h
          simp at h

/-- With a detected product column, numeric amounts, and at least one
row, the group-sum series is non-empty (so `idxmax` does not raise). -/
theorem gsOf_ne_nil {t : Table} {pc : String} {av : List ℚ}
    (hw : wf t = true) (hn : 0 < nRows t)
    (hpc : engineProdCol t = some pc) (hav : amountNum t = some av) :
    gsOf t ≠ [] := by
  have hmem : pc ∈ colNames t := List.mem_of_find?_eq_some hpc
  obtain ⟨c, hc⟩ := Option.isSome_iff_exists.mp (lookupCol_isSome_of_mem hmem)
  have hkeys : (colKeys (getColD t pc)).length = nRows t := by
    rw [getColD, hc, Option.getD_some, colKeys_length]
    exact colLen_of_wf hw hc
  have hlen : av.length = nRows t := by
    have := colLen_of_wf hw (amountNum_eq_some hav)
    simpa [colLen] using this
  have hz : (List.zip (colKeys (getColD t pc)) av).length = nRows t := by
    rw [List.length_zip, hkeys, hlen, min_self]
  have hpairs : List.zip (colKeys (getColD t pc)) av ≠ [] := by
    intro he
    rw [he] at hz
    simp at hz
    omega
  have hgroup := groupIn_ne_nil hpairs
  have hgseq : gsOf t =
      List.insertionSort (fun a b => strLe a.1 b.1 = true)
        (groupIn (List.zip (colKeys (getColD t pc)) av)) := by
    rw [gsOf, hpc, hav]
  rw [hgseq]
  intro he
  have := (List.perm_insertionSort (fun a b => strLe a.1 b.1 = true)
    (groupIn (List.zip (colKeys (getColD t pc)) av))).length_eq
  rw [he] at this
  simp only [List.length_nil] at this
  exact hgroup (List.length_eq_zero.mp this.symm)

/-- Claim C6 counterexample: on a zero-row table with a product column
and a numeric `amount` column, `generate_insights` raises (the
`ValueError` of `idxmax` on an empty series) instead of appending or
skipping the top-performer insight as the claim describes. -/
theorem C6_counterexample :
    engineProdCol [(("product"), Col.strCol []), (("amount"), Col.numCol [])] =
      some ("product") ∧
    amountNum [(("product"), Col.strCol []), (("amount"), Col.numCol [])] =
      some [] ∧
    generateInsights [(("product"), Col.strCol []), (("amount"), Col.numCol [])] 0 =
      .error () := by
  refine ⟨by decide, by decide, ?_⟩
  rfl

/-- Claim C6, amended: for every well-formed table with at least one
row, the insight list is produced without raising and, in fixed order:
the revenue insight is always present; the top-performer insight is
present iff a product column is engine-detected and `amount` is numeric,
carrying the top group and its share `top/revenue·100` when revenue is
positive and no percentage otherwise; the anomaly insight is present iff
`amount` is numeric with positive mean and a positive count of rows
exceeding twice the mean, carrying exactly that count and mean.  (On a
zero-row table with a detected product column and numeric amount the
function instead raises — the original claim's `for every table` fails
there.) -/
theorem C6_thm (t : Table) (rev : ℚ) (hw : wf t = true) (hn : 0 < nRows t) :
    ∃ l, generateInsights t rev = .ok l ∧
      Insight.revenue rev ∈ l ∧
      (∀ pc av, engineProdCol t = some pc → amountNum t = some av →
        ∃ tp tv, topEntry (gsOf t) = some (tp, tv) ∧
          (0 < rev → Insight.topShare tp (tv / rev * 100) ∈ l) ∧
          (¬0 < rev → Insight.topPlain tp ∈ l)) ∧
      (((∃ p s, Insight.topShare p s ∈ l) ∨ ∃ p, Insight.topPlain p ∈ l) →
        (engineProdCol t).isSome ∧ (amountNum t).isSome) ∧
      (∀ av, amountNum t = some av →
        ((0 < av.sum / (av.length : ℚ) →
            0 < (av.filter (fun a => 2 * (av.sum / (av.length : ℚ)) < a)).length →
            Insight.anomaly
              (av.filter (fun a => 2 * (av.sum / (av.length : ℚ)) < a)).length
              (av.sum / (av.length : ℚ)) ∈ l) ∧
          (∀ k q, Insight.anomaly k q ∈ l →
            q = av.sum / (av.length : ℚ) ∧
            k = (av.filter (fun a => 2 * (av.sum / (av.length : ℚ)) < a)).length ∧
            0 < av.sum / (av.length : ℚ) ∧ 0 < k))) ∧
      (amountNum t = none → ∀ k q, Insight.anomaly k q ∉ l) := by
  cases hpc : engineProdCol t with
  | some pc =>
      cases hav : amountNum t with
      | some av =>
          obtain ⟨g, gs, hgs⟩ := List.exists_cons_of_ne_nil
            (gsOf_ne_nil hw hn hpc hav)
          have htop : topEntry (gsOf t) =
              some (gs.foldl (fun b x => if b.2 < x.2 then x else b) g) := by
            rw [hgs, topEntry]
          have hlen : 0 < av.length := by
            have := colLen_of_wf hw (amountNum_eq_some hav)
            simp only [colLen] at this
            omega
          set te := gs.foldl (fun b x => if b.2 < x.2 then x else b) g with hte
          have hunfold : generateInsights t rev =
              .ok ([.revenue rev] ++
                (if 0 < rev then [.topShare te.1 (te.2 / rev * 100)]
                  else [.topPlain te.1]) ++
                (if 0 < av.sum / (av.length : ℚ) then
                  (if 0 < (av.filter
                      (fun a => 2 * (av.sum / (av.length : ℚ)) < a)).length then
                    [.anomaly
                      (av.filter (fun a => 2 * (av.sum / (av.length : ℚ)) < a)).length
                      (av.sum / (av.length : ℚ))]
                  else [])
                else [])) := by
            rw [generateInsights, hpc, hav, htop]
            simp only [if_pos hlen]
            by_cases hrev : 0 < rev
            · rw [if_pos hrev, if_pos hrev]
            · rw [if_neg hrev, if_neg hrev]
          refine ⟨_, hunfold, by simp, ?_, ?_, ?_, ?_⟩
          · intro pc' av' hpc' hav'
            refine ⟨te.1, te.2, by rw [htop], ?_, ?_⟩
            · intro hrev
              simp [if_pos hrev]
            · intro hrev
              simp [if_neg hrev]
          · intro _
            simp [hpc, hav]
          · intro av' hav'
            have hav'' : av' = av :=
              (Option.some_inj.mp hav').symm
            subst hav''
            constructor
            · intro hm hc
              rw [if_pos hm, if_pos hc]
              simp
            · intro k q hkq
              simp only [List.mem_append, List.mem_singleton] at hkq
              rcases hkq with (hkq | hkq) | hkq
              · simp at hkq
              · split_ifs at hkq <;> simp_all
              · split_ifs at hkq with h1 h2
                · simp only [List.mem_singleton] at hkq
                  injection hkq with hk hq
                  exact ⟨hq.symm ▸ rfl, hk.symm ▸ rfl, h1, by omega⟩
                · simp at hkq
                · simp at hkq
          · intro hnone
            exact absurd hnone (by simp)
      | none =>
          have hunfold : generateInsights t rev = .ok [.revenue rev] := by
            rw [generateInsights, hpc, hav]
            rfl
          refine ⟨_, hunfold, by simp, ?_, ?_, ?_, ?_⟩
          · intro pc' av' _ hav'
            exact absurd hav' (by simp)
          · rintro ((⟨p, s, hm⟩ | ⟨p, hm⟩))
            · simp at hm
            · simp at hm
          · intro av' hav'
            exact absurd hav' (by simp)
          · intro _ k q hm
            simp at hm
  | none =>
      obtain ⟨l, hl, hs, hp⟩ := generateInsights_no_prod hpc rev
      cases hav : amountNum t with
      | some av =>
          have hunfold : generateInsights t rev =
              .ok ([.revenue rev] ++ [] ++
                (if 0 < av.length then
                  (if 0 < av.sum / (av.length : ℚ) then
                    (if 0 < (av.filter
                        (fun a => 2 * (av.sum / (av.length : ℚ)) < a)).length then
                      [.anomaly
                        (av.filter
                          (fun a => 2 * (av.sum / (av.length : ℚ)) < a)).length
                        (av.sum / (av.length : ℚ))]
                    else [])
                  else [])
                else [])) := by
            rw [generateInsights, hpc, hav]
          have hlen : 0 < av.length := by
            have := colLen_of_wf hw (amountNum_eq_some hav)
            simp only [colLen] at this
            omega
          refine ⟨_, hunfold, by simp, ?_, ?_, ?_, ?_⟩
          · intro pc' av' hpc' _
            exact absurd hpc' (by simp)
          · rintro ((⟨p, s, hm⟩ | ⟨p, hm⟩))
            all_goals
              simp only [List.mem_append, List.mem_singleton] at hm
              rcases hm with (hm | hm) | hm
              · simp at hm
              · simp at hm
              · split_ifs at hm <;> simp_all
          · intro av' hav'
            have hav'' : av' = av :=
              (Option.some_inj.mp hav').symm
            subst hav''
            constructor
            · intro hm hc
              rw [if_pos hlen, if_pos hm, if_pos hc]
              simp
            · intro k q hkq
              simp only [List.mem_append, List.mem_singleton] at hkq
              rcases hkq with (hkq | hkq) | hkq
              · simp at hkq
              · simp at hkq
              · rw [if_pos hlen] at hkq
                split_ifs at hkq with h1 h2
                · simp only [List.mem_singleton] at hkq
                  injection hkq with hk hq
                  exact ⟨hq.symm ▸ rfl, hk.symm ▸ rfl, h1, by omega⟩
                · simp at hkq
                · simp at hkq
          · intro hnone
            exact absurd hnone (by simp)
      | none =>
          have hunfold : generateInsights t rev = .ok [.revenue rev] := by
            rw [generateInsights, hpc, hav]
            rfl
          refine ⟨_, hunfold, by simp, ?_, ?_, ?_, ?_⟩
          · intro pc' av' hpc' _
            exact absurd hpc' (by simp)
          · rintro ((⟨p, s, hm⟩ | ⟨p, hm⟩))
            · simp at hm
            · simp at hm
          · intro av' hav'
            exact absurd hav' (by simp)
          · intro _ k q hm
            simp at hm

/-- Claim C6 witness: the spec's anomaly example — amounts
`[1, 1, 1, 100]`, mean `25.75`, threshold `51.5`, exactly one row
flagged — instantiated through the amended theorem. -/
theorem C6_witness :
    ∃ l, generateInsights [(("amount"), Col.numCol [1, 1, 1, 100])] 103 = .ok l ∧
      Insight.revenue 103 ∈ l ∧ Insight.anomaly 1 (103 / 4) ∈ l := by
  obtain ⟨l, hok, hrev, _, _, hanom, _⟩ :=
    C6_thm [(("amount"), Col.numCol [1, 1, 1, 100])] 103 (by decide) (by decide)
  refine ⟨l, hok, hrev, ?_⟩
  have h := (hanom [1, 1, 1, 100] rfl).1
  have hm : ([1, 1, 1, 100] : List ℚ).sum /
      (([1, 1, 1, 100] : List ℚ).length : ℚ) = 103 / 4 := by
    norm_num
  rw [hm] at h
  have hfil : ([1, 1, 1, 100] : List ℚ).filter
      (fun a => 2 * ((103 : ℚ) / 4) < a) = [100] := by
    norm_num [List.filter_cons, List.filter_nil]
  rw [hfil] at h
  simpa using h (by norm_num) (by simp)

/-- The five regression sums of a four-point series, evaluated. -/
theorem sums4 (a b c d : ℚ) :
    sumY [a, b, c, d] = a + b + c + d ∧
    sumXY [a, b, c, d] = b + 2 * c + 3 * d ∧
    sumX 4 = 6 ∧ sumXX 4 = 14 := by
  have g0 : ([a, b, c, d] : List ℚ).getD 0 0 = a := rfl
  have g1 : ([a, b, c, d] : List ℚ).getD 1 0 = b := rfl
  have g2 : ([a, b, c, d] : List ℚ).getD 2 0 = c := rfl
  have g3 : ([a, b, c, d] : List ℚ).getD 3 0 = d := rfl
  refine ⟨?_, ?_, ?_, ?_⟩
  · rw [sumY, show ([a, b, c, d] : List ℚ).length = 4 from rfl,
      Finset.sum_range_succ, Finset.sum_range_succ, Finset.sum_range_succ,
      Finset.sum_range_succ, Finset.sum_range_zero, g0, g1, g2, g3]
    ring
  · rw [sumXY, show ([a, b, c, d] : List ℚ).length = 4 from rfl,
      Finset.sum_range_succ, Finset.sum_range_succ, Finset.sum_range_succ,
      Finset.sum_range_succ, Finset.sum_range_zero, g0, g1, g2, g3]
    push_cast
    ring
  · rw [sumX_eq]
    norm_num
  · rw [sumXX_eq]
    norm_num

theorem olsSlope4 (a b c d : ℚ) :
    olsSlope [a, b, c, d] =
      (4 * (b + 2 * c + 3 * d) - 6 * (a + b + c + d)) / 20 := by
  obtain ⟨h1, h2, h3, h4⟩ := sums4 a b c d
  rw [olsSlope, show ([a, b, c, d] : List ℚ).length = 4 from rfl, h1, h2, h3, h4]
  push_cast
  ring_nf

theorem olsIntercept4 (a b c d : ℚ) :
    olsIntercept [a, b, c, d] =
      ((a + b + c + d) - olsSlope [a, b, c, d] * 6) / 4 := by
  obtain ⟨h1, _, h3, _⟩ := sums4 a b c d
  rw [olsIntercept, show ([a, b, c, d] : List ℚ).length = 4 from rfl, h1, h3]
  push_cast
  ring_nf

/-- Claim C4: the forecaster regresses the amount series along the time
axis (date-sorted with unparseable-date rows dropped when a date role
exists, else raw row order): below two points the forecast is 0, else it
is `max 0 (slope·n + intercept)` where the closed-form coefficients
minimize the residual sum of squares (they are the ordinary
least-squares fit); the result is never negative; `[10, 20, 30, 40]`
gives slope 10, intercept 10, forecast 50; and the declining series
`[30, 20, 10, 0]` extrapolates to −10 but is floored to 0. -/
theorem C4_thm :
    (∀ (t : Table) (amtc : Col), lookupCol t ("amount") = some amtc →
      forecastSales t = forecastFromSeries (timeSeries t amtc)) ∧
    (∀ t : Table, lookupCol t ("amount") = none → forecastSales t = 0) ∧
    (∀ y : List ℚ, y.length < 2 → forecastFromSeries y = 0) ∧
    (∀ y : List ℚ, 2 ≤ y.length →
      forecastFromSeries y =
          max 0 (olsSlope y * (y.length : ℚ) + olsIntercept y) ∧
        ∀ a b : ℚ, sse y (olsSlope y) (olsIntercept y) ≤ sse y a b) ∧
    (∀ y : List ℚ, 0 ≤ forecastFromSeries y) ∧
    (olsSlope [10, 20, 30, 40] = 10 ∧ olsIntercept [10, 20, 30, 40] = 10 ∧
      forecastSales [(("amount"), Col.numCol [10, 20, 30, 40])] = 50) ∧
    (olsSlope [30, 20, 10, 0] * 4 + olsIntercept [30, 20, 10, 0] = -10 ∧
      forecastFromSeries [30, 20, 10, 0] = 0) := by
  have hs1 : olsSlope [(10 : ℚ), 20, 30, 40] = 10 := by
    rw [olsSlope4]
    norm_num
  have hi1 : olsIntercept [(10 : ℚ), 20, 30, 40] = 10 := by
    rw [olsIntercept4, hs1]
    norm_num
  have hs2 : olsSlope [(30 : ℚ), 20, 10, 0] = -10 := by
    rw [olsSlope4]
    norm_num
  have hi2 : olsIntercept [(30 : ℚ), 20, 10, 0] = 30 := by
    rw [olsIntercept4, hs2]
    norm_num
  refine ⟨?_, ?_, ?_, ?_, ?_, ?_, ?_⟩
  · intro t amtc h
    rw [forecastSales, h]
  · intro t h
    rw [forecastSales, h]
  · intro y h
    rw [forecastFromSeries, if_pos h]
  · intro y h
    exact ⟨by rw [forecastFromSeries, if_neg (by omega)], fun a b => sse_min h a b⟩
  · intro y
    rw [forecastFromSeries]
    split_ifs
    · exact le_refl 0
    · exact le_max_left 0 _
  · refine ⟨hs1, hi1, ?_⟩
    have hts : timeSeries [(("amount"), Col.numCol [10, 20, 30, 40])]
        (Col.numCol [10, 20, 30, 40]) = [10, 20, 30, 40] := by decide
    rw [forecastSales,
      show lookupCol [(("amount"), Col.numCol [10, 20, 30, 40])] ("amount") =
        some (Col.numCol [10, 20, 30, 40]) from by decide]
    show forecastFromSeries (timeSeries [(("amount"), Col.numCol [10, 20, 30, 40])]
      (Col.numCol [10, 20, 30, 40])) = 50
    rw [hts, forecastFromSeries, if_neg (by norm_num), hs1, hi1,
      show (([10, 20, 30, 40] : List ℚ).length : ℚ) = 4 from by norm_num]
    rw [max_eq_right (by norm_num)]
    norm_num
  · constructor
    · rw [hs2, hi2]
      norm_num
    · rw [forecastFromSeries, if_neg (by norm_num), hs2, hi2,
        show (([30, 20, 10, 0] : List ℚ).length : ℚ) = 4 from by norm_num]
      rw [max_eq_left (by norm_num)]

end BizAnalyzer
